import Mathlib

/-!
Shallow embedding of the jc URL string parser (`jc/parsers/url.py`) and of the
parts of the CPython 3.11 standard library it calls (`urllib.parse.urlsplit`,
`urlunsplit`, `unwrap`, `quote`, `quote_plus`, `unquote`, `unquote_plus`,
`parse_qs`, `parse_qsl`, and the `ipaddress` validation consulted by
`urlsplit` for bracketed hosts).

Python strings are modelled as lists of Unicode scalar values (`List Char`);
byte strings as `List Nat` with values below 256.  Modelling boundaries, each
noted where it occurs in the code below:
  * `_checknetloc` (an NFKC-normalization guard that can only reject netlocs
    containing non-ASCII characters) is modelled as accepting; theorems about
    the failure behaviour therefore carry an all-ASCII hypothesis.
  * `str.lower()` is modelled as ASCII lowercasing; `urlsplit` only applies it
    to scheme strings (pre-constrained to ASCII) and to hostnames.
-/

namespace JcUrl

abbrev Str := List Char

def chars (s : String) : Str := s.data

/-- Python `str` whitespace (the exact set of code points for which CPython's
`str.isspace` is true, as used by `str.strip`). -/
def pyWsChar (c : Char) : Bool :=
  [0x9, 0xa, 0xb, 0xc, 0xd, 0x1c, 0x1d, 0x1e, 0x1f, 0x20, 0x85, 0xa0, 0x1680,
   0x2000, 0x2001, 0x2002, 0x2003, 0x2004, 0x2005, 0x2006, 0x2007, 0x2008,
   0x2009, 0x200a, 0x2028, 0x2029, 0x202f, 0x205f, 0x3000].contains c.toNat

def pyStrip (s : Str) : Str :=
  ((s.dropWhile pyWsChar).reverse.dropWhile pyWsChar).reverse

def isAsciiUpper (c : Char) : Bool := decide (65 ≤ c.toNat ∧ c.toNat ≤ 90)

def isAsciiLowerC (c : Char) : Bool := decide (97 ≤ c.toNat ∧ c.toNat ≤ 122)

def isAsciiAlpha (c : Char) : Bool := isAsciiUpper c || isAsciiLowerC c

def isAsciiDigit (c : Char) : Bool := decide (48 ≤ c.toNat ∧ c.toNat ≤ 57)

def isHexDigitC (c : Char) : Bool :=
  isAsciiDigit c || decide (65 ≤ c.toNat ∧ c.toNat ≤ 70) ||
    decide (97 ≤ c.toNat ∧ c.toNat ≤ 102)

/-- ASCII lowercasing (Python's `str.lower()` restricted to ASCII letters). -/
def asciiLowerChar (c : Char) : Char :=
  if isAsciiUpper c then Char.ofNat (c.toNat + 32) else c

def asciiLower (s : Str) : Str := s.map asciiLowerChar

/-- Split at the first occurrence of `c`: `none` when `c` does not occur,
otherwise `some (before, after)` (neither side contains the separator
occurrence).  Models Python `s.split(c, 1)` / `s.partition(c)` /
`s.find(c)`-then-slice idioms. -/
def splitOnceChar (c : Char) : Str → Option (Str × Str)
  | [] => none
  | a :: rest =>
      if a = c then some ([], rest)
      else
        match splitOnceChar c rest with
        | none => none
        | some (x, y) => some (a :: x, y)

/-- Split at the last occurrence of `c` (Python `s.rpartition(c)` with a found
separator); `none` when `c` does not occur. -/
def rpartitionChar (c : Char) (s : Str) : Option (Str × Str) :=
  match splitOnceChar c s.reverse with
  | none => none
  | some (x, y) => some (y.reverse, x.reverse)

/-- Python `s.split(c)` (full split; `"".split(c) = ['']`). -/
def splitAllChar (c : Char) : Str → List Str
  | [] => [[]]
  | a :: rest =>
      if a = c then [] :: splitAllChar c rest
      else
        match splitAllChar c rest with
        | [] => [[a]]
        | x :: xs => (a :: x) :: xs

/-- `_splitnetloc` after the leading `"//"` has been dropped: the netloc is
everything up to the first `/`, `?` or `#`, the rest (delimiter included)
remains. -/
def splitNetloc : Str → Str × Str
  | [] => ([], [])
  | a :: rest =>
      if a = '/' ∨ a = '?' ∨ a = '#' then ([], a :: rest)
      else
        let p := splitNetloc rest
        (a :: p.1, p.2)

/-- `re.sub(r'/+', '/', s)`: collapse each run of slashes to one slash. -/
def collapseSlashes : Str → Str
  | [] => []
  | [c] => [c]
  | a :: b :: rest =>
      if a = '/' ∧ b = '/' then collapseSlashes (b :: rest)
      else a :: collapseSlashes (b :: rest)

/-- Python `s.replace(c, '', 1)`: drop the first occurrence of `c`. -/
def removeFirstChar (c : Char) : Str → Str
  | [] => []
  | a :: rest => if a = c then rest else a :: removeFirstChar c rest

def digitsToNat (s : Str) : Nat := s.foldl (fun a c => a * 10 + (c.toNat - 48)) 0

def orNoneStr (s : Str) : Option Str := if s.isEmpty then none else some s

def orNoneList {α : Type} (l : List α) : Option (List α) :=
  if l.isEmpty then none else some l

/-! ### `ipaddress` validity (CPython 3.11 `ipaddress.py`), as consulted by
`urlsplit` through `_check_bracketed_host` for netlocs containing `[`...`]`.
Only validity (raises or not) is observable from `urlsplit`, so the functions
below are Bool-valued mirrors of the corresponding parsers. -/

/-- `IPv4Address._parse_octet`: nonempty ASCII digits, at most 3 characters,
no leading zero (except `"0"` itself), value at most 255. -/
def octetOk (s : Str) : Bool :=
  !s.isEmpty && s.all isAsciiDigit && decide (s.length ≤ 3) &&
    (s == ['0'] || !(s.headD '0' = '0')) && decide (digitsToNat s ≤ 255)

/-- `IPv4Address.__init__` on a string: no `/`, exactly 4 valid octets. -/
def ipv4AddrOk (s : Str) : Bool :=
  !s.contains '/' &&
    (let os := splitAllChar '.' s
     decide (os.length = 4) && os.all octetOk)

/-- Numeric value of a valid dotted-quad IPv4 string. -/
def ipv4Value (s : Str) : Nat :=
  (splitAllChar '.' s).foldl (fun a o => a * 256 + digitsToNat o) 0

/-- `'%x' % n` (lowercase hex rendering of a natural number). -/
def natToHexStr (n : Nat) : Str := Nat.toDigits 16 n

/-- `IPv6Address._parse_hextet`: hex digits only, nonempty (an empty hextet
makes `int('', 16)` raise), at most 4 characters. -/
def hextetOk (s : Str) : Bool :=
  s.all isHexDigitC && decide (s.length ≤ 4) && !s.isEmpty

/-- The hextet-structure part of `IPv6Address._ip_int_from_string`, applied to
the colon-separated parts after any embedded IPv4 suffix has been replaced by
two hextets. -/
def ipv6PartsOk (qs : List Str) : Bool :=
  decide (qs.length ≤ 9) &&
    (let interior := (qs.drop 1).dropLast
     let empties := interior.filter List.isEmpty
     if empties.length = 0 then
       decide (qs.length = 8) && qs.all hextetOk
     else if empties.length = 1 then
       let j := (interior.findIdx List.isEmpty) + 1
       let headEmpty := (qs.headD ['x']).isEmpty
       let lastEmpty := (qs.getLastD ['x']).isEmpty
       let hi := if headEmpty then 0 else j
       let lo := if lastEmpty then 0 else qs.length - j - 1
       (!headEmpty || decide (j = 1)) &&
         (!lastEmpty || decide (j = qs.length - 2)) &&
         decide (hi + lo ≤ 7) &&
         (qs.take hi).all hextetOk && (qs.reverse.take lo).all hextetOk
     else false)

/-- `IPv6Address._ip_int_from_string` (validity only): at least 3 parts, an
IPv4-style last part is itself validated and replaced by two hextets, then the
`::`-skip structure and all parsed hextets are checked. -/
def ipv6CoreOk (s : Str) : Bool :=
  !s.isEmpty &&
    (let ps := splitAllChar ':' s
     decide (3 ≤ ps.length) &&
       (let last := ps.getLastD []
        if last.contains '.' then
          ipv4AddrOk last &&
            ipv6PartsOk (ps.dropLast ++
              [natToHexStr (ipv4Value last / 65536),
               natToHexStr (ipv4Value last % 65536)])
        else ipv6PartsOk ps))

/-- `IPv6Address.__init__` on a string: no `/`, optional `%zone` (nonempty,
without a further `%`), then the core address. -/
def ipv6AddrOk (s : Str) : Bool :=
  !s.contains '/' &&
    (match splitOnceChar '%' s with
     | none => ipv6CoreOk s
     | some (addr, zone) => !zone.isEmpty && !zone.contains '%' && ipv6CoreOk addr)

/-- The `re.match(r"\Av[a-fA-F0-9]+\..+\Z", hostname)` test used for
`v`-initial bracketed hosts: `v`, one or more hex digits, a dot, then at least
one character with no newline among them. -/
def ipvFutureOk : Str → Bool
  | 'v' :: rest =>
      let t := rest.dropWhile isHexDigitC
      !(rest.takeWhile isHexDigitC).isEmpty &&
        (match t with
         | '.' :: u => !u.isEmpty && u.all (fun c => !(c = '\n'))
         | _ => false)
  | _ => false

/-- `_check_bracketed_host`: `v...` hosts must match the IPvFuture pattern;
anything else must parse as an IP address (`ip_address` tries IPv4 first) and
must not be IPv4 (an IPv4 address cannot be in brackets). -/
def bracketedHostOk (h : Str) : Bool :=
  if h.headD ' ' = 'v' then ipvFutureOk h
  else !ipv4AddrOk h && ipv6AddrOk h

/-! ### `urllib.parse` core -/

structure SplitResult where
  scheme : Str
  netloc : Str
  path : Str
  query : Str
  fragment : Str
deriving DecidableEq, Repr

/-- Characters permitted in a scheme (`urllib.parse.scheme_chars`). -/
def schemeChar (c : Char) : Bool :=
  isAsciiAlpha c || isAsciiDigit c || c == '+' || c == '-' || c == '.'

/-- `urllib.parse.uses_netloc` (the schemes for which `urlunsplit`
reintroduces a `//`). -/
def usesNetloc (s : Str) : Bool :=
  (["", "ftp", "http", "gopher", "nntp", "telnet", "imap", "wais", "file",
    "mms", "https", "shttp", "snews", "prospero", "rtsp", "rtsps", "rtspu",
    "rsync", "svn", "svn+ssh", "sftp", "nfs", "git", "git+ssh", "ws",
    "wss"].map chars).contains s

/-- The bracket validation `urlsplit` performs on a parsed netloc: mismatched
`[`/`]` is an `Invalid IPv6 URL`; a matched pair has the text between the
first `[` and the following first `]` checked as a bracketed host. -/
def netlocBracketsCheck (n : Str) : Except String Unit :=
  if (n.contains '[' && !n.contains ']') || (n.contains ']' && !n.contains '[') then
    Except.error "Invalid IPv6 URL"
  else if n.contains '[' && n.contains ']' then
    let afterOpen :=
      match splitOnceChar '[' n with
      | some (_, a) => a
      | none => n
    let bracketed :=
      match splitOnceChar ']' afterOpen with
      | some (b, _) => b
      | none => afterOpen
    if bracketedHostOk bracketed then Except.ok ()
    else Except.error "bracketed host is not a valid IPv6 or IPvFuture address"
  else Except.ok ()

/-- The sanitization `urlsplit` applies first: strip leading C0-control and
space characters, then remove every tab, carriage return and newline. -/
def sanitizeUrl (u : Str) : Str :=
  (u.dropWhile (fun c => decide (c.toNat ≤ 0x20))).filter
    (fun c => !(c = '\t' ∨ c = '\r' ∨ c = '\n'))

/-- Scheme detection: a first `:` preceded by a nonempty run of scheme
characters starting with an ASCII letter yields the lowercased scheme and the
remainder; otherwise no scheme. -/
def schemeSplit (url1 : Str) : Str × Str :=
  match splitOnceChar ':' url1 with
  | some (pre, post) =>
      if !pre.isEmpty && isAsciiAlpha (pre.headD ' ') && pre.all schemeChar then
        (asciiLower pre, post)
      else ([], url1)
  | none => ([], url1)

/-- Netloc extraction: only when the remainder starts with `//`; the parsed
netloc is validated for brackets (which can raise). -/
def netlocSplitD (url2 : Str) : Except String (Str × Str) :=
  if url2.take 2 = ['/', '/'] then do
    let p := splitNetloc (url2.drop 2)
    netlocBracketsCheck p.1
    pure p
  else pure ([], url2)

/-- Fragment split at the first `#` (everything after it, if any). -/
def fragSplit (s : Str) : Str × Str :=
  match splitOnceChar '#' s with
  | some (a, b) => (a, b)
  | none => (s, [])

/-- Query split at the first `?` (everything after it, if any). -/
def querySplit (s : Str) : Str × Str :=
  match splitOnceChar '?' s with
  | some (a, b) => (a, b)
  | none => (s, [])

/-- `urllib.parse.urlsplit` (CPython 3.11, `allow_fragments=True`, default
scheme).  `_checknetloc` (which can only reject netlocs containing non-ASCII
characters, via NFKC normalization) is modelled as accepting; see the header
comment. -/
def urlsplitD (url0 : Str) : Except String SplitResult := do
  let url1 := sanitizeUrl url0
  let sp := schemeSplit url1
  let nl ← netlocSplitD sp.2
  let fr := fragSplit nl.2
  let qu := querySplit fr.1
  Except.ok (SplitResult.mk sp.1 nl.1 qu.1 qu.2 fr.2)

/-- `urllib.parse.urlunsplit` (CPython 3.11). -/
def urlunsplit (t : SplitResult) : Str :=
  let url0 :=
    if !t.netloc.isEmpty ||
        (!t.scheme.isEmpty && usesNetloc t.scheme && !(t.path.take 2 = ['/', '/'])) then
      ['/', '/'] ++ t.netloc ++
        (if !t.path.isEmpty && !(t.path.headD ' ' = '/') then '/' :: t.path else t.path)
    else t.path
  let url1 := if t.scheme.isEmpty then url0 else t.scheme ++ ':' :: url0
  let url2 := if t.query.isEmpty then url1 else url1 ++ '?' :: t.query
  if t.fragment.isEmpty then url2 else url2 ++ '#' :: t.fragment

/-- `SplitResult._userinfo`: the part before the last `@` of the netloc,
split at its first `:` into username and password (password `None` when there
is no colon, both `None` when there is no `@`). -/
def SplitResult.userinfo (r : SplitResult) : Option Str × Option Str :=
  match rpartitionChar '@' r.netloc with
  | none => (none, none)
  | some (ui, _) =>
      match splitOnceChar ':' ui with
      | none => (some ui, none)
      | some (u, p) => (some u, some p)

/-- `SplitResult._hostinfo`: host and port from the part after the last `@`;
a bracketed host ends at the first `]`, with the port after a following `:`;
otherwise the port follows the first `:`. An empty port string is `None`. -/
def SplitResult.hostinfo (r : SplitResult) : Str × Option Str :=
  let hostinfo :=
    match rpartitionChar '@' r.netloc with
    | some (_, a) => a
    | none => r.netloc
  let hp :=
    match splitOnceChar '[' hostinfo with
    | some (_, bracketed) =>
        match splitOnceChar ']' bracketed with
        | some (h, afterBr) =>
            (h,
             match splitOnceChar ':' afterBr with
             | some (_, p) => p
             | none => [])
        | none => (bracketed, [])
    | none =>
        match splitOnceChar ':' hostinfo with
        | some (h, p) => (h, p)
        | none => (hostinfo, [])
  (hp.1, if hp.2.isEmpty then none else some hp.2)

/-- `SplitResult.hostname`: `None` for an empty host, otherwise the host
lowercased, with an IPv6 zone id (after `%`) preserved uncased. -/
def SplitResult.hostname (r : SplitResult) : Option Str :=
  let h := r.hostinfo.1
  if h.isEmpty then none
  else
    match splitOnceChar '%' h with
    | none => some (asciiLower h)
    | some (a, zone) => some (asciiLower a ++ '%' :: zone)

/-- `SplitResult.port`: `None` when absent; otherwise the port string must be
nonempty ASCII digits (`port.isdigit() and port.isascii()`, which over all
strings is exactly "all characters are ASCII decimal digits") with value at
most 65535, else a `ValueError`. -/
def SplitResult.portD (r : SplitResult) : Except String (Option Nat) :=
  match r.hostinfo.2 with
  | none => Except.ok none
  | some p =>
      if !p.isEmpty && p.all isAsciiDigit then
        if digitsToNat p ≤ 65535 then Except.ok (some (digitsToNat p))
        else Except.error "Port out of range 0-65535"
      else Except.error "Port could not be cast to integer value"

/-! ### Percent-encoding and -decoding (`quote`, `quote_plus`, `unquote`,
`unquote_plus`), with the UTF-8 codec they rely on. -/

/-- UTF-8 encoding of one Unicode scalar value, as a list of byte values. -/
def utf8EncodeChar (c : Char) : List Nat :=
  let n := c.toNat
  if n ≤ 0x7F then [n]
  else if n ≤ 0x7FF then [192 + n / 64, 128 + n % 64]
  else if n ≤ 0xFFFF then [224 + n / 4096, 128 + n / 64 % 64, 128 + n % 64]
  else [240 + n / 262144, 128 + n / 4096 % 64, 128 + n / 64 % 64, 128 + n % 64]

def utf8Encode (s : Str) : List Nat := (s.map utf8EncodeChar).flatten

/-- The replacement character `U+FFFD`. -/
def fffd : Char := Char.ofNat 0xFFFD

def isCont (b : Nat) : Bool := decide (128 ≤ b ∧ b ≤ 191)

/-- UTF-8 decoding with `errors='replace'` exactly as CPython performs it:
each maximal subpart of an ill-formed sequence (a valid lead byte together
with the continuation bytes that are valid in their positions) is replaced by
a single `U+FFFD`; an invalid byte is replaced on its own. -/
def utf8DecodeReplace : List Nat → Str
  | [] => []
  | b :: rest =>
      if b ≤ 0x7F then Char.ofNat b :: utf8DecodeReplace rest
      else if 0xC2 ≤ b ∧ b ≤ 0xDF then
        match rest with
        | b2 :: rest2 =>
            if isCont b2 then
              Char.ofNat ((b - 192) * 64 + (b2 - 128)) :: utf8DecodeReplace rest2
            else fffd :: utf8DecodeReplace (b2 :: rest2)
        | [] => [fffd]
      else if 0xE0 ≤ b ∧ b ≤ 0xEF then
        let lo := if b = 0xE0 then 0xA0 else 0x80
        let hi := if b = 0xED then 0x9F else 0xBF
        match rest with
        | b2 :: rest2 =>
            if lo ≤ b2 ∧ b2 ≤ hi then
              match rest2 with
              | b3 :: rest3 =>
                  if isCont b3 then
                    Char.ofNat ((b - 224) * 4096 + (b2 - 128) * 64 + (b3 - 128)) ::
                      utf8DecodeReplace rest3
                  else fffd :: utf8DecodeReplace (b3 :: rest3)
              | [] => [fffd]
            else fffd :: utf8DecodeReplace (b2 :: rest2)
        | [] => [fffd]
      else if 0xF0 ≤ b ∧ b ≤ 0xF4 then
        let lo := if b = 0xF0 then 0x90 else 0x80
        let hi := if b = 0xF4 then 0x8F else 0xBF
        match rest with
        | b2 :: rest2 =>
            if lo ≤ b2 ∧ b2 ≤ hi then
              match rest2 with
              | b3 :: rest3 =>
                  if isCont b3 then
                    match rest3 with
                    | b4 :: rest4 =>
                        if isCont b4 then
                          Char.ofNat ((b - 240) * 262144 + (b2 - 128) * 4096 +
                              (b3 - 128) * 64 + (b4 - 128)) ::
                            utf8DecodeReplace rest4
                        else fffd :: utf8DecodeReplace (b4 :: rest4)
                    | [] => [fffd]
                  else fffd :: utf8DecodeReplace (b3 :: rest3)
              | [] => [fffd]
            else fffd :: utf8DecodeReplace (b2 :: rest2)
        | [] => [fffd]
      else fffd :: utf8DecodeReplace rest

/-- `_ALWAYS_SAFE`: ASCII letters, digits, and `_.-~` (byte values). -/
def alwaysSafeByte (b : Nat) : Bool :=
  decide (65 ≤ b ∧ b ≤ 90) || decide (97 ≤ b ∧ b ≤ 122) ||
    decide (48 ≤ b ∧ b ≤ 57) || b == 95 || b == 46 || b == 45 || b == 126

def hexUpperDigit (n : Nat) : Char :=
  if n < 10 then Char.ofNat (48 + n) else Char.ofNat (55 + n)

/-- One byte of `quote_from_bytes` output: safe bytes stay as their character,
others become an uppercase `%XX` escape. -/
def quoteByte (safe : List Nat) (b : Nat) : Str :=
  if alwaysSafeByte b || safe.contains b then [Char.ofNat b]
  else ['%', hexUpperDigit (b / 16), hexUpperDigit (b % 16)]

/-- `quote(s, safe)`: UTF-8 encode, then quote each byte.  (The all-safe /
empty-input early returns of `quote_from_bytes` produce the same string as
the general path and are not special-cased.)  Safe characters beyond ASCII
are dropped from the safe set (`safe.encode('ascii', 'ignore')`). -/
def pyQuote (safe : Str) (s : Str) : Str :=
  let safeB := (safe.filter (fun c => decide (c.toNat ≤ 127))).map Char.toNat
  ((utf8Encode s).map (quoteByte safeB)).flatten

/-- `quote_plus(s, safe)`: when the string has no space it is `quote` with the
given safe set; otherwise space is made safe during quoting and then replaced
by `+`. -/
def pyQuotePlus (safe : Str) (s : Str) : Str :=
  if !s.contains ' ' then pyQuote safe s
  else (pyQuote (safe ++ [' ']) s).map (fun c => if c = ' ' then '+' else c)

/-- Hex value of a byte that is an ASCII hex digit character. -/
def hexValByte (b : Nat) : Option Nat :=
  if 48 ≤ b ∧ b ≤ 57 then some (b - 48)
  else if 65 ≤ b ∧ b ≤ 70 then some (b - 55)
  else if 97 ≤ b ∧ b ≤ 102 then some (b - 87)
  else none

/-- `unquote_to_bytes` on a byte list: each `%` followed by two hex digits
becomes the corresponding byte; any other `%` stays literal. -/
def unqBytes : List Nat → List Nat
  | [] => []
  | 37 :: a :: b :: rest =>
      match hexValByte a, hexValByte b with
      | some x, some y => (16 * x + y) :: unqBytes rest
      | _, _ => 37 :: unqBytes (a :: b :: rest)
  | 37 :: rest => 37 :: unqBytes rest
  | b :: rest => b :: unqBytes rest

/-- The run phase of `unquote` (`_asciire.split` plus the decode loop):
maximal ASCII runs are percent-decoded to bytes and UTF-8 decoded with
replacement; non-ASCII characters pass through unchanged.  `acc` carries the
byte values of the current ASCII run in reverse; it is flushed at the end of
the string and at each non-ASCII character. -/
def unquoteRunsAux (acc : List Nat) : Str → Str
  | [] => utf8DecodeReplace (unqBytes acc.reverse)
  | c :: rest =>
      if c.toNat ≤ 127 then unquoteRunsAux (c.toNat :: acc) rest
      else utf8DecodeReplace (unqBytes acc.reverse) ++ c :: unquoteRunsAux [] rest

/-- `unquote(s)` with default encoding and errors: unchanged when there is no
`%`, otherwise decoded run by run. -/
def pyUnquote (s : Str) : Str :=
  if !s.contains '%' then s else unquoteRunsAux [] s

/-- `unquote_plus(s)`: `+` becomes space, then `unquote`. -/
def pyUnquotePlus (s : Str) : Str :=
  pyUnquote (s.map (fun c => if c = '+' then ' ' else c))

/-! ### Query-string parsing (`parse_qsl`, `parse_qs` with default keyword
arguments: blank values dropped, separator `&`, non-strict). -/

/-- One `name=value` field of `parse_qsl`: fields without `=` and fields with
an empty value are dropped; name and value have `+` replaced by space and are
percent-decoded. -/
def qslField (nv : Str) : Option (Str × Str) :=
  match splitOnceChar '=' nv with
  | none => none
  | some (n, v) =>
      if v.isEmpty then none
      else
        some (pyUnquote (n.map (fun c => if c = '+' then ' ' else c)),
              pyUnquote (v.map (fun c => if c = '+' then ' ' else c)))

/-- `parse_qsl(qs)`: empty input gives no pairs; otherwise split on `&`,
skip empty chunks, and parse each field. -/
def pyParseQsl (qs : Str) : List (Str × Str) :=
  if qs.isEmpty then []
  else (splitAllChar '&' qs).filterMap
    (fun nv => if nv.isEmpty then none else qslField nv)

/-- Appending one pair to the insertion-ordered multi-dict built by
`parse_qs`. -/
def qsInsert (m : List (Str × List Str)) (k : Str) (v : Str) : List (Str × List Str) :=
  match m with
  | [] => [(k, [v])]
  | (k2, vs) :: rest =>
      if k2 = k then (k2, vs ++ [v]) :: rest else (k2, vs) :: qsInsert rest k v

/-- `parse_qs(qs)`: group the `parse_qsl` pairs by key, keys in first-seen
order, values in occurrence order. -/
def pyParseQs (qs : Str) : List (Str × List Str) :=
  (pyParseQsl qs).foldl (fun m kv => qsInsert m kv.1 kv.2) []

/-! ### The jc URL parser (`jc/parsers/url.py`) -/

/-- The bracket-unwrapping step of `urllib.parse.unwrap`: if the (stripped)
string starts with `<` and ends with `>`, remove them and strip again. -/
def unwrapBrackets (s : Str) : Str :=
  if s.headD ' ' = '<' ∧ s.getLastD ' ' = '>' then pyStrip (s.drop 1).dropLast
  else s

/-- The `URL:`-marker step of `urllib.parse.unwrap`: if the string starts with
the case-sensitive marker `URL:`, remove it and strip again. -/
def unwrapMarker (s : Str) : Str :=
  if s.take 4 = chars "URL:" then pyStrip (s.drop 4) else s

/-- `urllib.parse.unwrap`: strip whitespace, one `<`...`>` enclosure (with an
inner strip), then one case-sensitive `URL:` marker (with a final strip). -/
def pyUnwrap (u0 : Str) : Str :=
  unwrapMarker (unwrapBrackets (pyStrip u0))

/-- Modelled from the spec: `jc.utils.has_data` is called by `parse` but its
definition lives outside `src/`.  Per the spec, input that is empty or
whitespace-only yields the empty record, every other input is parsed; so
`has_data` holds exactly for strings with at least one non-whitespace
character. -/
def has_data (s : Str) : Bool := !s.isEmpty && !s.all pyWsChar

/-- The thirteen-field output record (`URLRecord` of the spec). -/
structure URLRecord where
  quoted : Option Str
  unquoted : Option Str
  scheme : Option Str
  netloc : Option Str
  path : Option Str
  path_list : Option (List Str)
  query : Option (List (Str × List Str))
  query_list : Option (List (Str × Str))
  fragment : Option Str
  username : Option Str
  password : Option Str
  hostname : Option Str
  port : Option Nat
deriving DecidableEq, Repr

/-- A parse result: the empty dictionary `{}` (returned for input without
data) is distinct from a populated record. -/
inductive PyDict where
  | noData : PyDict
  | record (r : URLRecord) : PyDict
deriving DecidableEq, Repr

/-- The quoted variant: the normalized split with its path re-quoted
(`quote`, safe `/`) and its query re-quoted (`quote_plus`, safe `+`),
reassembled by `geturl`. -/
def quotedOf (t : SplitResult) : Str :=
  urlunsplit (SplitResult.mk t.scheme t.netloc (pyQuote (chars "/") t.path)
    (pyQuotePlus (chars "+") t.query) t.fragment)

/-- The unquoted variant: the normalized split with path and query
percent-decoded (query also `+`-decoded), reassembled by `geturl`. -/
def unquotedOf (t : SplitResult) : Str :=
  urlunsplit (SplitResult.mk t.scheme t.netloc (pyUnquote t.path)
    (pyUnquotePlus t.query) t.fragment)

/-- `my_path`: the unquoted path with duplicate slashes collapsed, when the
path is nonempty. -/
def myPathOf (uparts : SplitResult) : Option Str :=
  if uparts.path.isEmpty then none else some (collapseSlashes uparts.path)

/-- `path_list`: `my_path` with the first `/` removed, split on `/`; the
all-empty split (`['']`) becomes `None`. -/
def pathListOf (uparts : SplitResult) : Option (List Str) :=
  match myPathOf uparts with
  | none => none
  | some p =>
      let pl := splitAllChar '/' (removeFirstChar '/' p)
      if pl = [[]] then none else some pl

/-- Assembling `raw_output` from the original split, the two reassembled
strings and the re-split unquoted string; accessing `parts.port` may fail.
Fields follow the source: `x or None` coercions for the first nine fields,
the authority sub-components taken from the property accessors unchanged. -/
def buildRecord (parts : SplitResult) (quoted unquoted : Str)
    (uparts : SplitResult) : Except String URLRecord := do
  let port ← parts.portD
  Except.ok (URLRecord.mk
    (orNoneStr quoted)
    (orNoneStr unquoted)
    (orNoneStr parts.scheme)
    (orNoneStr parts.netloc)
    (match myPathOf uparts with
     | none => none
     | some p => orNoneStr p)
    (match pathListOf uparts with
     | none => none
     | some pl => orNoneList pl)
    (if uparts.query.isEmpty then none else orNoneList (pyParseQs uparts.query))
    (if uparts.query.isEmpty then none else orNoneList (pyParseQsl uparts.query))
    (orNoneStr parts.fragment)
    parts.userinfo.1
    parts.userinfo.2
    parts.hostname
    port)

/-- `_process`: final processing to conform to the schema (the identity). -/
def processOutput (d : PyDict) : PyDict := d

/-- `jc.parsers.url.parse` (the `raw` and `quiet` flags do not affect the
returned value: `_process` is the identity and the compatibility check only
warns).  Input without data yields the empty dictionary; otherwise the
unwrapped input is split, round-tripped and re-split, the quoted and unquoted
variants are built, and the record is assembled; a `ValueError` from
`urlsplit` or from the port accessor propagates as `Except.error`. -/
def parse (data : Str) : Except String PyDict := do
  if has_data data then
    let parts ← urlsplitD (pyUnwrap data)
    let normalized ← urlsplitD (urlunsplit parts)
    let quoted := quotedOf normalized
    let unquoted := unquotedOf normalized
    let uparts ← urlsplitD unquoted
    let r ← buildRecord parts quoted unquoted uparts
    Except.ok (processOutput (PyDict.record r))
  else
    Except.ok (processOutput PyDict.noData)

/-! ### Field accessors on parse results (used to state claims about single
fields of a successful parse). -/

def fieldQuoted (e : Except String PyDict) : Option (Option Str) :=
  match e with
  | Except.ok (PyDict.record r) => some r.quoted
  | _ => none

def fieldUnquoted (e : Except String PyDict) : Option (Option Str) :=
  match e with
  | Except.ok (PyDict.record r) => some r.unquoted
  | _ => none

def fieldPath (e : Except String PyDict) : Option (Option Str) :=
  match e with
  | Except.ok (PyDict.record r) => some r.path
  | _ => none

def fieldPathList (e : Except String PyDict) : Option (Option (List Str)) :=
  match e with
  | Except.ok (PyDict.record r) => some r.path_list
  | _ => none

def fieldQuery (e : Except String PyDict) : Option (Option (List (Str × List Str))) :=
  match e with
  | Except.ok (PyDict.record r) => some r.query
  | _ => none

def fieldQueryList (e : Except String PyDict) : Option (Option (List (Str × Str))) :=
  match e with
  | Except.ok (PyDict.record r) => some r.query_list
  | _ => none

def fieldFragment (e : Except String PyDict) : Option (Option Str) :=
  match e with
  | Except.ok (PyDict.record r) => some r.fragment
  | _ => none

def fieldUsername (e : Except String PyDict) : Option (Option Str) :=
  match e with
  | Except.ok (PyDict.record r) => some r.username
  | _ => none

/-- The path component of a URL string as `urlsplit` sees it (used to speak
about "the path of the quoted/unquoted URL" in claims). -/
def pathOfD (x : Str) : Option Str :=
  match urlsplitD x with
  | Except.ok t => some t.path
  | _ => none

/-- The query component of a URL string as `urlsplit` sees it. -/
def queryOfD (x : Str) : Option Str :=
  match urlsplitD x with
  | Except.ok t => some t.query
  | _ => none

/-- Joining a list of strings with a separator (Python `sep.join(xs)`). -/
def joinWith (sep : Str) : List Str → Str
  | [] => []
  | [x] => x
  | x :: y :: rest => x ++ sep ++ joinWith sep (y :: rest)

def pyLStrip (s : Str) : Str := s.dropWhile pyWsChar

def pyRStrip (s : Str) : Str := (s.reverse.dropWhile pyWsChar).reverse

/-- Validity of a present port string: nonempty ASCII digits with value at
most 65535 (exactly the condition under which `SplitResult.port` does not
raise). -/
def validPortStr (p : Str) : Bool :=
  !p.isEmpty && p.all isAsciiDigit && decide (digitsToNat p ≤ 65535)

/-- The `MalformedAuthority` condition: a port subcomponent is present in the
netloc but is not a valid port. -/
def portFails (t : SplitResult) : Bool :=
  match t.hostinfo.2 with
  | none => false
  | some p => !validPortStr p

/-- Sufficient conditions for a split tuple to be recovered exactly by
`urlsplit` after `urlunsplit` (the round-trip the parser's normalization
step relies on). -/
def splitStable (t : SplitResult) : Prop :=
  (∀ c ∈ t.scheme ++ t.netloc ++ t.path ++ t.query ++ t.fragment,
    ¬(c = '\t' ∨ c = '\r' ∨ c = '\n')) ∧
  (t.scheme = [] ∨ (isAsciiAlpha (t.scheme.headD ' ') = true ∧
    t.scheme.all schemeChar = true ∧ asciiLower t.scheme = t.scheme)) ∧
  (∀ c ∈ t.netloc, ¬(c = '/' ∨ c = '?' ∨ c = '#' ∨ c = '[' ∨ c = ']')) ∧
  '?' ∉ t.path ∧ '#' ∉ t.path ∧ '#' ∉ t.query ∧
  (t.netloc = [] →
    ¬t.path.take 2 = ['/', '/'] ∧
    (t.scheme = [] ∨ usesNetloc t.scheme = false) ∧
    (t.scheme = [] → ':' ∉ t.path) ∧
    (t.scheme = [] → t.path = [] ∨ ¬((t.path.headD '/').toNat ≤ 0x20))) ∧
  (¬t.netloc = [] → (t.path = [] ∨ t.path.headD ' ' = '/'))

/-! ### Inversion of a successful parse -/

theorem parse_ok_inv (data : Str) (r : URLRecord)
    (h : parse data = Except.ok (PyDict.record r)) :
    has_data data = true ∧
    ∃ parts normalized uparts,
      urlsplitD (pyUnwrap data) = Except.ok parts ∧
      urlsplitD (urlunsplit parts) = Except.ok normalized ∧
      urlsplitD (unquotedOf normalized) = Except.ok uparts ∧
      buildRecord parts (quotedOf normalized) (unquotedOf normalized) uparts =
        Except.ok r := by
  by_cases hd : has_data data
  · refine ⟨hd, ?_⟩
    simp only [parse, hd, if_true, bind, Except.bind] at h
    rcases h1 : urlsplitD (pyUnwrap data) with e1 | parts
    · rw [h1] at h; simp only at h; exact absurd h (by simp)
    rw [h1] at h; simp only at h
    rcases h2 : urlsplitD (urlunsplit parts) with e2 | normalized
    · rw [h2] at h; simp only at h; exact absurd h (by simp)
    rw [h2] at h; simp only at h
    rcases h3 : urlsplitD (unquotedOf normalized) with e3 | uparts
    · rw [h3] at h; simp only at h; exact absurd h (by simp)
    rw [h3] at h; simp only at h
    rcases h4 : buildRecord parts (quotedOf normalized) (unquotedOf normalized)
        uparts with e4 | r2
    · rw [h4] at h; simp only at h; exact absurd h (by simp)
    rw [h4] at h; simp only at h
    simp only [processOutput, Except.ok.injEq, PyDict.record.injEq] at h
    subst h
    exact ⟨parts, normalized, uparts, rfl, h2, h3, h4⟩
  · simp only [parse, hd, if_false, processOutput, Bool.false_eq_true] at h
    exact absurd h (by simp)

theorem buildRecord_ok_inv (parts : SplitResult) (quoted unquoted : Str)
    (uparts : SplitResult) (r : URLRecord)
    (h : buildRecord parts quoted unquoted uparts = Except.ok r) :
    ∃ port, parts.portD = Except.ok port ∧
      r = URLRecord.mk
        (orNoneStr quoted)
        (orNoneStr unquoted)
        (orNoneStr parts.scheme)
        (orNoneStr parts.netloc)
        (match myPathOf uparts with
         | none => none
         | some p => orNoneStr p)
        (match pathListOf uparts with
         | none => none
         | some pl => orNoneList pl)
        (if uparts.query.isEmpty then none else orNoneList (pyParseQs uparts.query))
        (if uparts.query.isEmpty then none else orNoneList (pyParseQsl uparts.query))
        (orNoneStr parts.fragment)
        parts.userinfo.1
        parts.userinfo.2
        parts.hostname
        port := by
  simp only [buildRecord, bind, Except.bind] at h
  rcases hp : parts.portD with e | port
  · rw [hp] at h; simp at h
  rw [hp] at h
  simp only [Except.ok.injEq] at h
  exact ⟨port, rfl, h.symm⟩

/-! ### Small facts about the null-coercions -/

theorem orNoneStr_ne_some_nil (s : Str) : orNoneStr s ≠ some [] := by
  unfold orNoneStr
  split
  · simp
  · next h => simp_all

theorem orNoneList_ne_some_nil {α : Type} (l : List α) : orNoneList l ≠ some [] := by
  unfold orNoneList
  split
  · simp
  · next h => simp_all

theorem orNoneStr_eq_some_inv (s u : Str) (h : orNoneStr s = some u) : s = u := by
  unfold orNoneStr at h
  split at h
  · simp at h
  · simpa using h

theorem hostname_ne_some_nil (t : SplitResult) : t.hostname ≠ some [] := by
  show (if (t.hostinfo.1).isEmpty = true then none
    else
      match splitOnceChar '%' t.hostinfo.1 with
      | none => some (asciiLower t.hostinfo.1)
      | some (a, zone) => some (asciiLower a ++ '%' :: zone)) ≠ some []
  split
  · simp
  · next hne =>
      split
      · next h2 =>
          simp only [ne_eq, Option.some.injEq]
          intro hmap
          rw [asciiLower, List.map_eq_nil_iff] at hmap
          simp [hmap] at hne
      · simp [asciiLower]

/-! ### Claim C1 -/

/-- C1: the claim states that for empty or whitespace-only input `parse`
returns a record with all thirteen fields present and null.  In fact the
code's `raw_output` stays the empty dictionary `{}`, which has no fields at
all: at the concrete input `""`, the result is the empty dictionary and not a
record (in particular not the all-null record). -/
theorem c1_counterexample :
    parse (chars "") = Except.ok PyDict.noData ∧
      PyDict.noData ≠ PyDict.record (URLRecord.mk none none none none none
        none none none none none none none none) := by
  constructor
  · rfl
  · simp

/-- C1 (amended): for every input that is empty or consists only of
whitespace, `parse` succeeds and returns the empty dictionary (no failure, but
also no thirteen-field record; field lookups on it find nothing rather than
null values). -/
theorem c1_amended (s : Str) (h : s = [] ∨ s.all pyWsChar = true) :
    parse s = Except.ok PyDict.noData := by
  have hd : has_data s = false := by
    rcases h with h | h
    · subst h; rfl
    · simp [has_data, h]
  simp [parse, hd, processOutput]

theorem c1_witness : parse (chars " ") = Except.ok PyDict.noData :=
  c1_amended (chars " ") (Or.inr (by decide))

/-! ### Claim C8 -/

/-- C8: the claim states no field of a returned record is ever an empty
string, with empty components (including username and password) emitted as
null.  At the concrete input `http://@h/`, the netloc is `@h`, so the userinfo
in front of the `@` is the empty string, and the `username` field of the
record is the empty string, not null. -/
theorem c8_counterexample :
    fieldUsername (parse (chars "http://@h/")) = some (some []) ∧
      some ([] : Str) ≠ (none : Option Str) := by
  constructor
  · rfl
  · simp

/-- C8 (amended): in every record returned by `parse`, the fields `quoted`,
`unquoted`, `scheme`, `netloc`, `path`, `path_list`, `query`, `query_list`,
`fragment` and `hostname` are never the empty string or an empty collection
(they are null instead); only `username` and `password` can surface as empty
strings (when the netloc has an `@` with an empty userinfo or an empty
password after `:`). -/
theorem c8_amended (data : Str) (r : URLRecord)
    (h : parse data = Except.ok (PyDict.record r)) :
    r.quoted ≠ some [] ∧ r.unquoted ≠ some [] ∧ r.scheme ≠ some [] ∧
      r.netloc ≠ some [] ∧ r.path ≠ some [] ∧ r.path_list ≠ some [] ∧
      r.query ≠ some [] ∧ r.query_list ≠ some [] ∧ r.fragment ≠ some [] ∧
      r.hostname ≠ some [] := by
  obtain ⟨-, parts, normalized, uparts, -, -, -, hb⟩ := parse_ok_inv data r h
  obtain ⟨port, -, hr⟩ := buildRecord_ok_inv _ _ _ _ _ hb
  subst hr
  refine ⟨orNoneStr_ne_some_nil _, orNoneStr_ne_some_nil _, orNoneStr_ne_some_nil _,
    orNoneStr_ne_some_nil _, ?_, ?_, ?_, ?_, orNoneStr_ne_some_nil _,
    hostname_ne_some_nil _⟩
  · show (match myPathOf uparts with
      | none => none
      | some p => orNoneStr p) ≠ some []
    split
    · simp
    · exact orNoneStr_ne_some_nil _
  · show (match pathListOf uparts with
      | none => none
      | some pl => orNoneList pl) ≠ some []
    split
    · simp
    · exact orNoneList_ne_some_nil _
  · show (if uparts.query.isEmpty then none
      else orNoneList (pyParseQs uparts.query)) ≠ some []
    split
    · simp
    · exact orNoneList_ne_some_nil _
  · show (if uparts.query.isEmpty then none
      else orNoneList (pyParseQsl uparts.query)) ≠ some []
    split
    · simp
    · exact orNoneList_ne_some_nil _

theorem c8_witness :
    (URLRecord.mk (some (chars "a")) (some (chars "a")) none none
        (some (chars "a")) (some [chars "a"]) none none none none none none
        none).quoted ≠ some [] :=
  (c8_amended (chars "a") _ (by rfl)).1

/-! ### Nonemptiness of decoded values -/

theorem unqBytes_ne_nil (l : List Nat) (h : l ≠ []) : unqBytes l ≠ [] := by
  unfold unqBytes
  split
  · exact absurd rfl h
  · split <;> simp
  · simp
  · simp

theorem utf8DecodeReplace_ne_nil (l : List Nat) (h : l ≠ []) :
    utf8DecodeReplace l ≠ [] := by
  unfold utf8DecodeReplace
  split
  · exact absurd rfl h
  · repeat' split
    all_goals first
      | (simp; done)
      | (intro hx; (try dsimp only at hx); split at hx <;> simp at hx)

theorem unquoteRunsAux_ne_nil (acc : List Nat) (s : Str)
    (h : acc ≠ [] ∨ s ≠ []) : unquoteRunsAux acc s ≠ [] := by
  induction s generalizing acc with
  | nil =>
      rcases h with h | h
      · exact utf8DecodeReplace_ne_nil _ (unqBytes_ne_nil _ (by simpa using h))
      · exact absurd rfl h
  | cons c rest ih =>
      rw [unquoteRunsAux]
      split
      · exact ih _ (Or.inl (by simp))
      · simp

theorem pyUnquote_ne_nil (s : Str) (h : s ≠ []) : pyUnquote s ≠ [] := by
  unfold pyUnquote
  split
  · exact h
  · exact unquoteRunsAux_ne_nil [] s (Or.inr h)

theorem orNoneList_eq_some_inv {α : Type} (l m : List α)
    (h : orNoneList l = some m) : l = m := by
  unfold orNoneList at h
  split at h
  · simp at h
  · simpa using h

/-- Every pair produced by `parse_qsl` has a nonempty (decoded) value. -/
theorem qsl_mem_val_ne_nil (q k v : Str) (h : (k, v) ∈ pyParseQsl q) :
    v ≠ [] := by
  unfold pyParseQsl at h
  split at h
  · simp at h
  · rw [List.mem_filterMap] at h
    obtain ⟨nv, -, hf⟩ := h
    split at hf
    · simp at hf
    · unfold qslField at hf
      split at hf
      · simp at hf
      · next n v0 heq =>
          split at hf
          · simp at hf
          · next hv0 =>
              simp only [Option.some.injEq, Prod.mk.injEq] at hf
              rw [← hf.2]
              apply pyUnquote_ne_nil
              simp only [ne_eq, List.map_eq_nil_iff]
              simpa using hv0

/-! ### Claim C10 -/

/-- C10: blank-valued query occurrences are dropped.  In full: (1) every pair
in any record's `query_list` has a nonempty value (so a key whose only
occurrence is blank appears in neither `query_list` nor `query`, which is
grouped from the same pairs); and (2) at the concrete input
`http://e/p?a=&b=1`, both `query` and `query_list` contain only the key `b`
with value `1` — the blank-valued key `a` is absent from both. -/
theorem c10_theorem :
    (∀ (data : Str) (r : URLRecord) (l : List (Str × Str)) (k v : Str),
        parse data = Except.ok (PyDict.record r) → r.query_list = some l →
        (k, v) ∈ l → v ≠ []) ∧
      fieldQuery (parse (chars "http://e/p?a=&b=1")) =
          some (some [(chars "b", [chars "1"])]) ∧
        fieldQueryList (parse (chars "http://e/p?a=&b=1")) =
          some (some [(chars "b", chars "1")]) := by
  refine ⟨?_, by rfl, by rfl⟩
  intro data r l k v h hql hm
  obtain ⟨-, parts, normalized, uparts, -, -, -, hb⟩ := parse_ok_inv data r h
  obtain ⟨port, -, hr⟩ := buildRecord_ok_inv _ _ _ _ _ hb
  subst hr
  simp only at hql
  split at hql
  · simp at hql
  · have := orNoneList_eq_some_inv _ _ hql
    exact qsl_mem_val_ne_nil uparts.query k v (this ▸ hm)

theorem c10_witness : chars "1" ≠ [] :=
  c10_theorem.1 (chars "http://e/p?a=&b=1") _ [(chars "b", chars "1")]
    (chars "b") (chars "1") (by rfl) (by rfl) (by simp)

/-! ### Path joining and splitting -/


theorem joinWith_cons_cons (sep : Str) (a : Char) (x : Str) (xs : List Str) :
    joinWith sep ((a :: x) :: xs) = a :: joinWith sep (x :: xs) := by
  cases xs with
  | nil => rfl
  | cons y ys => simp [joinWith]

theorem splitAllChar_ne_nil (c : Char) (s : Str) : splitAllChar c s ≠ [] := by
  cases s with
  | nil => simp [splitAllChar]
  | cons a rest =>
      unfold splitAllChar
      split
      · simp
      · split <;> simp

theorem joinWith_splitAll (c : Char) (s : Str) :
    joinWith [c] (splitAllChar c s) = s := by
  induction s with
  | nil => rfl
  | cons a rest ih =>
      unfold splitAllChar
      by_cases hac : a = c
      · subst hac
        rw [if_pos rfl]
        rcases hL : splitAllChar a rest with _ | ⟨x, xs⟩
        · exact absurd hL (splitAllChar_ne_nil a rest)
        · rw [hL] at ih
          simp [joinWith, ← ih]
      · rw [if_neg hac]
        rcases hL : splitAllChar c rest with _ | ⟨x, xs⟩
        · exact absurd hL (splitAllChar_ne_nil c rest)
        · rw [hL] at ih
          rw [joinWith_cons_cons]
          rw [ih]

theorem splitAll_eq_nilnil_iff (c : Char) (s : Str) :
    splitAllChar c s = [[]] ↔ s = [] := by
  constructor
  · intro h
    cases s with
    | nil => rfl
    | cons a rest =>
        unfold splitAllChar at h
        split at h
        · simp at h
          exact absurd h (splitAllChar_ne_nil c rest)
        · split at h <;> simp_all
  · intro h; subst h; rfl

theorem collapse_cons (c : Char) (r : Str) :
    ∃ t, collapseSlashes (c :: r) = c :: t := by
  induction r generalizing c with
  | nil => exact ⟨[], rfl⟩
  | cons b rest ih =>
      unfold collapseSlashes
      split
      · next hab =>
          obtain ⟨t, ht⟩ := ih b
          exact ⟨t, by rw [ht, hab.1, hab.2]⟩
      · exact ⟨collapseSlashes (b :: rest), rfl⟩

theorem collapse_idem (s : Str) :
    collapseSlashes (collapseSlashes s) = collapseSlashes s := by
  induction s using collapseSlashes.induct with
  | case1 => rfl
  | case2 c => rfl
  | case3 a b rest hab ih =>
      rw [collapseSlashes]
      rw [if_pos hab]
      exact ih
  | case4 a b rest hab ih =>
      rw [collapseSlashes, if_neg hab]
      obtain ⟨t, ht⟩ := collapse_cons b rest
      rw [ht] at ih ⊢
      rw [collapseSlashes, if_neg hab, ih]

/-! ### Claim C5 -/

/-- C5: the claim's path/path_list relation at a concrete input.  For the
schemeless relative input `a/b` the code removes the FIRST `/` anywhere (not
one leading slash): `path` is `a/b` but `path_list` is `["ab"]`, and joining
`path_list` with `/`, prefixing `/` and collapsing slash runs gives `/ab`,
not the path `a/b`. -/
theorem c5_counterexample :
    fieldPath (parse (chars "a/b")) = some (some (chars "a/b")) ∧
      fieldPathList (parse (chars "a/b")) = some (some [chars "ab"]) ∧
      collapseSlashes ('/' :: joinWith ['/'] [chars "ab"]) ≠ chars "a/b" := by
  refine ⟨by rfl, by rfl, by decide⟩

/-- C5 (amended): for every successful parse whose `path` field is non-null
and begins with `/`, if `path_list` is non-null then prefixing `/` to the
`/`-join of `path_list` and collapsing duplicate slashes yields exactly
`path`; and `path_list` is null exactly when the path is `/` (the all-empty
split).  (For relative paths that do not begin with `/` the code removes the
first slash anywhere in the path, and the relation fails, as the
counterexample shows.) -/
theorem c5_amended (data : Str) (r : URLRecord) (p : Str)
    (h : parse data = Except.ok (PyDict.record r)) (hp : r.path = some p)
    (hs : p.headD ' ' = '/') :
    (∀ pl, r.path_list = some pl →
        collapseSlashes ('/' :: joinWith ['/'] pl) = p) ∧
      (r.path_list = none ↔ p = ['/']) := by
  obtain ⟨-, parts, normalized, uparts, -, -, -, hb⟩ := parse_ok_inv data r h
  obtain ⟨port, -, hr⟩ := buildRecord_ok_inv _ _ _ _ _ hb
  subst hr
  simp only at hp
  rcases hmp : myPathOf uparts with _ | p0
  · rw [hmp] at hp; simp at hp
  rw [hmp] at hp
  have hp0 : p0 = p := orNoneStr_eq_some_inv _ _ hp
  subst hp0
  have hcol : collapseSlashes uparts.path = p0 := by
    unfold myPathOf at hmp
    split at hmp
    · simp at hmp
    · simpa using hmp
  have hidem : collapseSlashes p0 = p0 := by rw [← hcol, collapse_idem]
  obtain ⟨ptl, hptl⟩ : ∃ t, p0 = '/' :: t := by
    cases p0 with
    | nil => exact absurd hs (by decide)
    | cons a t =>
        simp at hs
        exact ⟨t, by rw [hs]⟩
  have hrm : removeFirstChar '/' p0 = ptl := by
    rw [hptl]; simp [removeFirstChar]
  have hplo : pathListOf uparts =
      (if splitAllChar '/' ptl = [[]] then none
       else some (splitAllChar '/' ptl)) := by
    unfold pathListOf
    rw [hmp]
    simp only [hrm]
  constructor
  · intro pl hpl
    simp only at hpl
    rw [hplo] at hpl
    by_cases hsp : splitAllChar '/' ptl = [[]]
    · rw [if_pos hsp] at hpl; simp at hpl
    · rw [if_neg hsp] at hpl
      have hx : orNoneList (splitAllChar '/' ptl) = some pl := by
        simpa using hpl
      have := orNoneList_eq_some_inv _ _ hx
      rw [← this, joinWith_splitAll, ← hptl]
      exact hidem
  constructor
  · intro hpl
    simp only at hpl
    rw [hplo] at hpl
    by_cases hsp : splitAllChar '/' ptl = [[]]
    · rw [splitAll_eq_nilnil_iff] at hsp
      rw [hptl, hsp]
    · rw [if_neg hsp] at hpl
      have h2 : orNoneList (splitAllChar '/' ptl) = none := by simpa using hpl
      unfold orNoneList at h2
      split at h2
      · next hemp =>
          exact absurd (by simpa using hemp) (splitAllChar_ne_nil '/' ptl)
      · simp at h2
  · intro hpeq
    have hptl_nil : ptl = [] := by
      rw [hpeq] at hptl
      injection hptl with h1 h2
      exact h2.symm
    show (match pathListOf uparts with
      | none => none
      | some pl => orNoneList pl) = none
    rw [hplo, hptl_nil,
      if_pos (show splitAllChar '/' ([] : Str) = [[]] from rfl)]

theorem c5_witness :
    collapseSlashes ('/' :: joinWith ['/'] [chars "a", chars "b"]) =
      chars "/a/b" :=
  (c5_amended (chars "http://e/a//b") _ (chars "/a/b") (by rfl) (by rfl)
      (by rfl)).1 [chars "a", chars "b"] (by rfl)

/-! ### Claim C9 -/

/-- C9: the claim states the `fragment` field is the percent-decoded fragment
identifier.  At the concrete input `http://e/p#a%20b` the fragment component
contains a percent-escape, and the `fragment` field is the raw text `a%20b`,
which differs from its percent-decoding `a b`. -/
theorem c9_counterexample :
    fieldFragment (parse (chars "http://e/p#a%20b")) =
        some (some (chars "a%20b")) ∧
      pyUnquote (chars "a%20b") = chars "a b" ∧
      chars "a%20b" ≠ chars "a b" := by
  refine ⟨by rfl, by rfl, by decide⟩

/-- C9 (amended): the `fragment` field of every record returned by `parse` is
the raw fragment component of the split of the unwrapped input (coerced to
null when empty); percent-escapes in it are preserved, not decoded. -/
theorem c9_amended (data : Str) (r : URLRecord) (parts : SplitResult)
    (h : parse data = Except.ok (PyDict.record r))
    (hs : urlsplitD (pyUnwrap data) = Except.ok parts) :
    r.fragment = orNoneStr parts.fragment := by
  obtain ⟨-, parts2, normalized, uparts, h1, -, -, hb⟩ := parse_ok_inv data r h
  obtain ⟨port, -, hr⟩ := buildRecord_ok_inv _ _ _ _ _ hb
  subst hr
  rw [h1] at hs
  have h2 : parts2 = parts := by
    injection hs
  subst h2
  rfl

/-! ### Stripping lemmas (for claim C7) -/

theorem pyStrip_eq_comp (s : Str) : pyStrip s = pyRStrip (pyLStrip s) := rfl

theorem pyLStrip_cons_of_nonws (a : Char) (t : Str) (h : pyWsChar a = false) :
    pyLStrip (a :: t) = a :: t := by
  simp [pyLStrip, List.dropWhile_cons, h]

theorem pyRStrip_eq_nil_iff (s : Str) :
    pyRStrip s = [] ↔ ∀ c ∈ s, pyWsChar c = true := by
  unfold pyRStrip
  rw [List.reverse_eq_nil_iff, List.dropWhile_eq_nil_iff]
  constructor
  · intro h c hc
    exact h c (List.mem_reverse.mpr hc)
  · intro h c hc
    exact h c (List.mem_reverse.mp hc)

theorem pyLStrip_eq_nil_iff (s : Str) :
    pyLStrip s = [] ↔ ∀ c ∈ s, pyWsChar c = true := List.dropWhile_eq_nil_iff

theorem pyRStrip_cons (a : Char) (t : Str) :
    pyRStrip (a :: t) =
      if pyRStrip t = [] then (if pyWsChar a then [] else [a])
      else a :: pyRStrip t := by
  unfold pyRStrip
  rw [List.reverse_cons, List.dropWhile_append]
  by_cases h : t.reverse.dropWhile pyWsChar = []
  · rw [h]
    simp only [List.isEmpty_nil, if_true, List.reverse_eq_nil_iff.mpr h, if_pos rfl]
    by_cases ha : pyWsChar a
    · simp [List.dropWhile_cons, ha]
    · simp [List.dropWhile_cons, ha]
  · rw [if_neg (by simpa using h), if_neg (by simpa using h)]
    rw [List.reverse_append]
    simp

theorem pyRStrip_idem (s : Str) : pyRStrip (pyRStrip s) = pyRStrip s := by
  induction s with
  | nil => rfl
  | cons a t ih =>
      rw [pyRStrip_cons]
      by_cases h : pyRStrip t = []
      · rw [if_pos h]
        by_cases ha : pyWsChar a
        · rw [if_pos ha]; rfl
        · rw [if_neg ha]
          rw [pyRStrip_cons]
          simp [ha, pyRStrip]
      · rw [if_neg h]
        rw [pyRStrip_cons, ih, if_neg h]

theorem lstrip_rstrip_comm (s : Str) :
    pyLStrip (pyRStrip s) = pyRStrip (pyLStrip s) := by
  induction s with
  | nil => rfl
  | cons a t ih =>
      by_cases ha : pyWsChar a
      · rw [pyRStrip_cons]
        have hl : pyLStrip (a :: t) = pyLStrip t := by
          simp [pyLStrip, List.dropWhile_cons, ha]
        rw [hl]
        by_cases h : pyRStrip t = []
        · rw [if_pos h, if_pos ha]
          have : ∀ c ∈ t, pyWsChar c = true := (pyRStrip_eq_nil_iff t).mp h
          have hlt : pyLStrip t = [] := (pyLStrip_eq_nil_iff t).mpr this
          rw [hlt]
          rfl
        · rw [if_neg h]
          have : pyLStrip (a :: pyRStrip t) = pyLStrip (pyRStrip t) := by
            simp [pyLStrip, List.dropWhile_cons, ha]
          rw [this, ih]
      · rw [pyRStrip_cons]
        have hl : pyLStrip (a :: t) = a :: t := pyLStrip_cons_of_nonws a t
          (by simpa using ha)
        rw [hl]
        by_cases h : pyRStrip t = []
        · rw [if_pos h, if_neg ha]
          rw [pyLStrip_cons_of_nonws a [] (by simpa using ha)]
          rw [pyRStrip_cons, if_pos h, if_neg ha]
        · rw [if_neg h]
          rw [pyLStrip_cons_of_nonws a (pyRStrip t) (by simpa using ha)]
          rw [pyRStrip_cons, if_neg h]

theorem pyStrip_rstrip (s : Str) : pyStrip (pyRStrip s) = pyStrip s := by
  rw [pyStrip_eq_comp, pyStrip_eq_comp, lstrip_rstrip_comm, pyRStrip_idem]

theorem pyStrip_eq_self (s : Str) (h1 : pyWsChar (s.headD ' ') = false)
    (h2 : pyWsChar (s.getLastD ' ') = false) : pyStrip s = s := by
  cases s with
  | nil => rfl
  | cons a t =>
      rw [pyStrip_eq_comp]
      rw [pyLStrip_cons_of_nonws a t (by simpa using h1)]
      unfold pyRStrip
      have hrev : (a :: t).reverse.headD ' ' = (a :: t).getLastD ' ' := by
        rw [List.headD_eq_head?, List.head?_reverse, List.getLastD_eq_getLast?]
      have : (a :: t).reverse.dropWhile pyWsChar = (a :: t).reverse := by
        cases hrc : (a :: t).reverse with
        | nil => rfl
        | cons b u =>
            rw [List.dropWhile_cons]
            have hb : pyWsChar b = false := by
              have := hrev
              rw [hrc] at this
              simp only [List.headD_cons] at this
              rw [this]
              exact h2
            rw [hb]
            simp
      rw [this, List.reverse_reverse]

/-- Whole-string strip of a `URL:`-prefixed string with some non-whitespace
content: only the right end is stripped. -/
theorem pyStrip_url_append (X : Str) (hne : ¬ ∀ c ∈ X, pyWsChar c = true) :
    pyStrip (chars "URL:" ++ X) = chars "URL:" ++ pyRStrip X := by
  rw [pyStrip_eq_comp]
  have h1 : pyLStrip (chars "URL:" ++ X) = chars "URL:" ++ X := by
    rw [show chars "URL:" ++ X = 'U' :: (chars "RL:" ++ X) by rfl]
    exact pyLStrip_cons_of_nonws _ _ (by decide)
  rw [h1]
  unfold pyRStrip
  rw [List.reverse_append, List.dropWhile_append]
  have h2 : ¬(X.reverse.dropWhile pyWsChar).isEmpty = true := by
    rw [List.isEmpty_iff, List.dropWhile_eq_nil_iff]
    intro hall
    exact hne (fun c hc => hall c (List.mem_reverse.mpr hc))
  rw [if_neg h2, List.reverse_append, List.reverse_reverse]

theorem c9_witness :
    (some (chars "a%20b") : Option Str) = orNoneStr (chars "a%20b") :=
  c9_amended (chars "http://e/p#a%20b")
    (URLRecord.mk (some (chars "http://e/p#a%20b"))
      (some (chars "http://e/p#a%20b")) (some (chars "http"))
      (some (chars "e")) (some (chars "/p")) (some [chars "p"]) none none
      (some (chars "a%20b")) none none (some (chars "e")) none)
    (SplitResult.mk (chars "http") (chars "e") (chars "/p") [] (chars "a%20b"))
    (by rfl) (by rfl)

/-! ### Unwrap equalities (for claim C7) -/

theorem pyUnwrap_plain (X : Str)
    (h2 : ¬((pyStrip X).headD ' ' = '<' ∧ (pyStrip X).getLastD ' ' = '>'))
    (h3 : (pyStrip X).take 4 ≠ chars "URL:") :
    pyUnwrap X = pyStrip X := by
  unfold pyUnwrap unwrapBrackets unwrapMarker
  rw [if_neg h2, if_neg h3]

theorem take4_url_append (Y : Str) :
    (chars "URL:" ++ Y).take 4 = chars "URL:" := by
  rw [show (4 : Nat) = (chars "URL:").length from rfl]
  exact List.take_left _ _

theorem drop4_url_append (Y : Str) :
    (chars "URL:" ++ Y).drop 4 = Y := by
  rw [show (4 : Nat) = (chars "URL:").length from rfl]
  exact List.drop_left _ _

theorem pyUnwrap_bracket (X : Str)
    (h3 : (pyStrip X).take 4 ≠ chars "URL:") :
    pyUnwrap ('<' :: X ++ ['>']) = pyStrip X := by
  have hlast : ('<' :: X ++ ['>']).getLastD ' ' = '>' := by
    rw [List.getLastD_eq_getLast?,
      show '<' :: X ++ ['>'] = ('<' :: X) ++ ['>'] from rfl,
      List.getLast?_concat]
    rfl
  have hhead : ('<' :: X ++ ['>']).headD ' ' = '<' := rfl
  have hstrip : pyStrip ('<' :: X ++ ['>']) = '<' :: X ++ ['>'] :=
    pyStrip_eq_self ('<' :: X ++ ['>']) (by rfl) (by rw [hlast]; decide)
  have hbr : unwrapBrackets ('<' :: X ++ ['>']) = pyStrip X := by
    unfold unwrapBrackets
    rw [if_pos (And.intro hhead hlast)]
    have hd : (('<' :: X ++ ['>']).drop 1).dropLast = X := by
      show (X ++ ['>']).dropLast = X
      exact List.dropLast_concat
    rw [hd]
  unfold pyUnwrap
  rw [hstrip, hbr]
  unfold unwrapMarker
  rw [if_neg h3]

theorem pyUnwrap_marker (X : Str) (h1 : ¬ ∀ c ∈ X, pyWsChar c = true) :
    pyUnwrap (chars "URL:" ++ X) = pyStrip X := by
  have hstrip : pyStrip (chars "URL:" ++ X) = chars "URL:" ++ pyRStrip X :=
    pyStrip_url_append X h1
  have hbr : unwrapBrackets (chars "URL:" ++ pyRStrip X) =
      chars "URL:" ++ pyRStrip X := by
    unfold unwrapBrackets
    rw [if_neg]
    intro hcon
    exact absurd (show ('U' : Char) = '<' from hcon.1) (by decide)
  have hmk : unwrapMarker (chars "URL:" ++ pyRStrip X) = pyStrip X := by
    unfold unwrapMarker
    rw [take4_url_append, if_pos rfl, drop4_url_append, pyStrip_rstrip]
  unfold pyUnwrap
  rw [hstrip, hbr, hmk]

theorem pyUnwrap_bracket_marker (X : Str) (h1 : ¬ ∀ c ∈ X, pyWsChar c = true) :
    pyUnwrap ('<' :: (chars "URL:" ++ X) ++ ['>']) = pyStrip X := by
  have hlast : ('<' :: (chars "URL:" ++ X) ++ ['>']).getLastD ' ' = '>' := by
    rw [List.getLastD_eq_getLast?,
      show '<' :: (chars "URL:" ++ X) ++ ['>'] =
        ('<' :: (chars "URL:" ++ X)) ++ ['>'] from rfl,
      List.getLast?_concat]
    rfl
  have hhead : ('<' :: (chars "URL:" ++ X) ++ ['>']).headD ' ' = '<' := rfl
  have hstrip : pyStrip ('<' :: (chars "URL:" ++ X) ++ ['>']) =
      '<' :: (chars "URL:" ++ X) ++ ['>'] :=
    pyStrip_eq_self ('<' :: (chars "URL:" ++ X) ++ ['>']) (by rfl)
      (by rw [hlast]; decide)
  have hbr : unwrapBrackets ('<' :: (chars "URL:" ++ X) ++ ['>']) =
      chars "URL:" ++ pyRStrip X := by
    unfold unwrapBrackets
    rw [if_pos (And.intro hhead hlast)]
    have hd : (('<' :: (chars "URL:" ++ X) ++ ['>']).drop 1).dropLast =
        chars "URL:" ++ X := by
      show ((chars "URL:" ++ X) ++ ['>']).dropLast = chars "URL:" ++ X
      exact List.dropLast_concat
    rw [hd]
    exact pyStrip_url_append X h1
  have hmk : unwrapMarker (chars "URL:" ++ pyRStrip X) = pyStrip X := by
    unfold unwrapMarker
    rw [take4_url_append, if_pos rfl, drop4_url_append, pyStrip_rstrip]
  unfold pyUnwrap
  rw [hstrip, hbr, hmk]

theorem has_data_cons_nonws (c : Char) (t : Str) (h : pyWsChar c = false) :
    has_data (c :: t) = true := by
  simp [has_data, h]

theorem parse_congr_unwrap (x y : Str) (hx : has_data x = true)
    (hy : has_data y = true) (h : pyUnwrap x = pyUnwrap y) :
    parse x = parse y := by
  unfold parse
  rw [hx, hy, h]

/-! ### Claim C7 -/

/-- C7: unwrap invariance is claimed for every string `X`.  For `X = <b>`
(itself bracket-shaped) it fails: `parse "<b>"` unwraps the brackets and
parses `b`, while `parse "<<b>>"` unwraps only the outer brackets and parses
`<b>`; the records differ (path `b` versus `<b>`). -/
theorem c7_counterexample :
    fieldPath (parse (chars "<b>")) = some (some (chars "b")) ∧
      fieldPath (parse (chars "<<b>>")) = some (some (chars "<b>")) ∧
      parse (chars "<b>") ≠ parse (chars "<<b>>") := by
  refine ⟨by rfl, by rfl, ?_⟩
  intro h
  have h2 : fieldPath (parse (chars "<b>")) =
      fieldPath (parse (chars "<<b>>")) := by rw [h]
  rw [show fieldPath (parse (chars "<b>")) = some (some (chars "b")) from rfl,
    show fieldPath (parse (chars "<<b>>")) = some (some (chars "<b>")) from
      rfl] at h2
  exact absurd h2 (by decide)

/-- C7 (amended): for every string `X` that contains a non-whitespace
character and whose stripped form is not itself bracket-enclosed and does not
begin with the `URL:` marker, the four inputs `X`, `<X>`, `URL:X` and
`<URL:X>` produce identical results from `parse`.  (The restrictions are
forced: a whitespace-only `X` yields the empty record while `<X>` does not,
and a bracket-enclosed or `URL:`-prefixed `X` is unwrapped once more on the
bare side than inside the wrappers.) -/
theorem c7_amended (X : Str) (h1 : has_data X = true)
    (h2 : ¬((pyStrip X).headD ' ' = '<' ∧ (pyStrip X).getLastD ' ' = '>'))
    (h3 : (pyStrip X).take 4 ≠ chars "URL:") :
    parse ('<' :: X ++ ['>']) = parse X ∧
      parse (chars "URL:" ++ X) = parse X ∧
      parse ('<' :: (chars "URL:" ++ X) ++ ['>']) = parse X := by
  have hallws : ¬ ∀ c ∈ X, pyWsChar c = true := by
    intro hall
    rw [has_data] at h1
    rcases hx : X with _ | ⟨a, t⟩
    · rw [hx] at h1; simp at h1
    · rw [hx] at h1
      simp only [List.isEmpty_cons, Bool.not_false, Bool.true_and] at h1
      rw [hx] at hall
      have : (a :: t).all pyWsChar = true := List.all_eq_true.mpr hall
      rw [this] at h1
      simp at h1
  have hplain : pyUnwrap X = pyStrip X := pyUnwrap_plain X h2 h3
  refine ⟨?_, ?_, ?_⟩
  · exact parse_congr_unwrap _ _ (has_data_cons_nonws '<' _ (by decide)) h1
      ((pyUnwrap_bracket X h3).trans hplain.symm)
  · exact parse_congr_unwrap _ _ (has_data_cons_nonws 'U' _ (by decide)) h1
      ((pyUnwrap_marker X hallws).trans hplain.symm)
  · exact parse_congr_unwrap _ _ (has_data_cons_nonws '<' _ (by decide)) h1
      ((pyUnwrap_bracket_marker X hallws).trans hplain.symm)

theorem c7_witness :
    parse ('<' :: chars "http://e/p" ++ ['>']) = parse (chars "http://e/p") ∧
      parse (chars "URL:" ++ chars "http://e/p") = parse (chars "http://e/p") ∧
      parse ('<' :: (chars "URL:" ++ chars "http://e/p") ++ ['>']) =
        parse (chars "http://e/p") :=
  c7_amended (chars "http://e/p") (by decide) (by decide) (by decide)

/-! ### Character provenance through splitting (for claim C2) -/

theorem splitOnceChar_mem (c : Char) (s x y : Str)
    (h : splitOnceChar c s = some (x, y)) :
    (∀ d ∈ x, d ∈ s) ∧ (∀ d ∈ y, d ∈ s) := by
  induction s generalizing x y with
  | nil => simp [splitOnceChar] at h
  | cons a rest ih =>
      unfold splitOnceChar at h
      split at h
      · simp only [Option.some.injEq, Prod.mk.injEq] at h
        rw [← h.1, ← h.2]
        exact ⟨by simp, fun d hd => List.mem_cons_of_mem a hd⟩
      · rcases hin : splitOnceChar c rest with _ | ⟨x2, y2⟩
        · rw [hin] at h; simp at h
        · rw [hin] at h
          simp only [Option.some.injEq, Prod.mk.injEq] at h
          obtain ⟨ih1, ih2⟩ := ih x2 y2 hin
          constructor
          · intro d hd
            rw [← h.1] at hd
            rcases List.mem_cons.mp hd with hda | hdx
            · rw [hda]; simp
            · exact List.mem_cons_of_mem a (ih1 d hdx)
          · intro d hd
            rw [← h.2] at hd
            exact List.mem_cons_of_mem a (ih2 d hd)

theorem splitNetloc_mem (s : Str) :
    (∀ d ∈ (splitNetloc s).1, d ∈ s) ∧ ∀ d ∈ (splitNetloc s).2, d ∈ s := by
  induction s with
  | nil => simp [splitNetloc]
  | cons a rest ih =>
      unfold splitNetloc
      split
      · exact ⟨by simp, fun d hd => hd⟩
      · constructor
        · intro d hd
          rcases List.mem_cons.mp hd with hda | hdx
          · rw [hda]; simp
          · exact List.mem_cons_of_mem a (ih.1 d hdx)
        · intro d hd
          exact List.mem_cons_of_mem a (ih.2 d hd)

theorem asciiLower_mem (s : Str) (x : Char) (hx : x ∈ asciiLower s) :
    ∃ e ∈ s, x = asciiLowerChar e := by
  unfold asciiLower at hx
  obtain ⟨e, he, hex⟩ := List.mem_map.mp hx
  exact ⟨e, he, hex.symm⟩

/-- Characters that are not lowercase ASCII letters are produced by
`asciiLowerChar` only from themselves. -/
theorem asciiLowerChar_fix (c : Char) (hc : ¬(97 ≤ c.toNat ∧ c.toNat ≤ 122))
    (e : Char) (he : asciiLowerChar e = c) : e = c := by
  unfold asciiLowerChar at he
  split at he
  · next hu =>
      exfalso
      apply hc
      rw [← he]
      have hv : ((e.toNat + 32 : Nat).isValidChar) := by
        simp only [isAsciiUpper, decide_eq_true_eq] at hu
        left
        omega
      have hofnat : (Char.ofNat (e.toNat + 32)).toNat = e.toNat + 32 := by
        unfold Char.ofNat
        rw [dif_pos hv]
        rfl
      rw [hofnat]
      simp only [isAsciiUpper, decide_eq_true_eq] at hu
      omega
  · exact he

theorem sanitizeUrl_mem (u : Str) (x : Char) (hx : x ∈ sanitizeUrl u) :
    x ∈ u :=
  (List.dropWhile_sublist _).subset (List.mem_of_mem_filter hx)

theorem schemeSplit_mem (u : Str) :
    (∀ x ∈ (schemeSplit u).2, x ∈ u) ∧
      (∀ x ∈ (schemeSplit u).1, ∃ e ∈ u, x = asciiLowerChar e) := by
  unfold schemeSplit
  rcases hsp : splitOnceChar ':' u with _ | ⟨pre, post⟩ <;> dsimp only
  · exact ⟨fun x hx => hx, by simp⟩
  · obtain ⟨h1, h2⟩ := splitOnceChar_mem ':' u pre post hsp
    split
    · refine ⟨fun x hx => h2 x hx, fun x hx => ?_⟩
      obtain ⟨e, he, hex⟩ := asciiLower_mem pre x hx
      exact ⟨e, h1 e he, hex⟩
    · exact ⟨fun x hx => hx, by simp⟩

theorem netlocSplitD_ok_mem (s : Str) (p : Str × Str)
    (h : netlocSplitD s = Except.ok p) :
    (∀ x ∈ p.1, x ∈ s) ∧ (∀ x ∈ p.2, x ∈ s) := by
  unfold netlocSplitD at h
  split at h
  · simp only [bind, Except.bind] at h
    rcases hchk : netlocBracketsCheck (splitNetloc (s.drop 2)).1 with e | un
    · rw [hchk] at h; simp at h
    · rw [hchk] at h
      simp only [pure, Except.pure, Except.ok.injEq] at h
      rw [← h]
      constructor
      · intro x hx
        exact (List.drop_sublist _ _).subset ((splitNetloc_mem _).1 x hx)
      · intro x hx
        exact (List.drop_sublist _ _).subset ((splitNetloc_mem _).2 x hx)
  · simp only [pure, Except.pure, Except.ok.injEq] at h
    rw [← h]
    exact ⟨by simp, fun x hx => hx⟩

theorem fragSplit_mem (s : Str) :
    (∀ x ∈ (fragSplit s).1, x ∈ s) ∧ ∀ x ∈ (fragSplit s).2, x ∈ s := by
  unfold fragSplit
  rcases hsp : splitOnceChar '#' s with _ | ⟨a, b⟩
  · exact ⟨fun x hx => hx, by simp⟩
  · exact splitOnceChar_mem '#' s a b hsp

theorem querySplit_mem (s : Str) :
    (∀ x ∈ (querySplit s).1, x ∈ s) ∧ ∀ x ∈ (querySplit s).2, x ∈ s := by
  unfold querySplit
  rcases hsp : splitOnceChar '?' s with _ | ⟨a, b⟩
  · exact ⟨fun x hx => hx, by simp⟩
  · exact splitOnceChar_mem '?' s a b hsp

theorem urlsplitD_ok_inv (u : Str) (t : SplitResult)
    (h : urlsplitD u = Except.ok t) :
    ∃ nl, netlocSplitD (schemeSplit (sanitizeUrl u)).2 = Except.ok nl ∧
      t = SplitResult.mk (schemeSplit (sanitizeUrl u)).1 nl.1
        (querySplit (fragSplit nl.2).1).1 (querySplit (fragSplit nl.2).1).2
        (fragSplit nl.2).2 := by
  unfold urlsplitD at h
  simp only [bind, Except.bind] at h
  rcases hnl : netlocSplitD (schemeSplit (sanitizeUrl u)).2 with e | nl
  · rw [hnl] at h; simp at h
  · rw [hnl] at h
    simp only [Except.ok.injEq] at h
    exact ⟨nl, rfl, h.symm⟩

theorem urlsplitD_mem (u : Str) (t : SplitResult)
    (h : urlsplitD u = Except.ok t) :
    (∀ x ∈ t.netloc, x ∈ u) ∧ (∀ x ∈ t.path, x ∈ u) ∧
      (∀ x ∈ t.query, x ∈ u) ∧ (∀ x ∈ t.fragment, x ∈ u) ∧
      ∀ x ∈ t.scheme, ∃ e ∈ u, x = asciiLowerChar e := by
  obtain ⟨nl, hnl, ht⟩ := urlsplitD_ok_inv u t h
  subst ht
  have hs2 := (schemeSplit_mem (sanitizeUrl u)).1
  have hs1 := (schemeSplit_mem (sanitizeUrl u)).2
  have hn := netlocSplitD_ok_mem _ nl hnl
  have hf := fragSplit_mem nl.2
  have hq := querySplit_mem (fragSplit nl.2).1
  refine ⟨?_, ?_, ?_, ?_, ?_⟩
  · exact fun x hx => sanitizeUrl_mem u x (hs2 x (hn.1 x hx))
  · exact fun x hx => sanitizeUrl_mem u x (hs2 x (hn.2 x (hf.1 x (hq.1 x hx))))
  · exact fun x hx => sanitizeUrl_mem u x (hs2 x (hn.2 x (hf.1 x (hq.2 x hx))))
  · exact fun x hx => sanitizeUrl_mem u x (hs2 x (hn.2 x (hf.2 x hx)))
  · intro x hx
    obtain ⟨e, he, hex⟩ := hs1 x hx
    exact ⟨e, sanitizeUrl_mem u e he, hex⟩

theorem contains_eq_false_of_not_mem (l : Str) (a : Char) (h : a ∉ l) :
    l.contains a = false := by
  rw [Bool.eq_false_iff]
  intro hc
  exact h (List.mem_of_elem_eq_true hc)

theorem netlocBracketsCheck_ok (n : Str) (h1 : n.contains '[' = false)
    (h2 : n.contains ']' = false) : netlocBracketsCheck n = Except.ok () := by
  unfold netlocBracketsCheck
  rw [h1, h2]
  simp

theorem netlocSplitD_ok_of_no_brackets (s : Str) (h1 : '[' ∉ s) (h2 : ']' ∉ s) :
    ∃ p, netlocSplitD s = Except.ok p := by
  unfold netlocSplitD
  split
  · have hn1 : (splitNetloc (s.drop 2)).1.contains '[' = false :=
      contains_eq_false_of_not_mem _ _ (fun hm =>
        h1 ((List.drop_sublist _ _).subset ((splitNetloc_mem _).1 _ hm)))
    have hn2 : (splitNetloc (s.drop 2)).1.contains ']' = false :=
      contains_eq_false_of_not_mem _ _ (fun hm =>
        h2 ((List.drop_sublist _ _).subset ((splitNetloc_mem _).1 _ hm)))
    simp only [bind, Except.bind, netlocBracketsCheck_ok _ hn1 hn2]
    exact ⟨_, rfl⟩
  · exact ⟨_, rfl⟩

theorem urlsplitD_ok_of_no_brackets (u : Str) (h1 : '[' ∉ u) (h2 : ']' ∉ u) :
    ∃ t, urlsplitD u = Except.ok t := by
  have hs2 := (schemeSplit_mem (sanitizeUrl u)).1
  obtain ⟨p, hp⟩ := netlocSplitD_ok_of_no_brackets
    (schemeSplit (sanitizeUrl u)).2
    (fun hm => h1 (sanitizeUrl_mem u _ (hs2 _ hm)))
    (fun hm => h2 (sanitizeUrl_mem u _ (hs2 _ hm)))
  unfold urlsplitD
  simp only [bind, Except.bind, hp]
  exact ⟨_, rfl⟩

/-! ### Membership through urlunsplit and decoding -/

theorem urlunsplit_mem (t : SplitResult) (x : Char) (hx : x ∈ urlunsplit t) :
    x ∈ t.scheme ∨ x ∈ t.netloc ∨ x ∈ t.path ∨ x ∈ t.query ∨ x ∈ t.fragment ∨
      x = '/' ∨ x = ':' ∨ x = '?' ∨ x = '#' := by
  have hpath : ∀ y ∈ t.path,
      y ∈ t.scheme ∨ y ∈ t.netloc ∨ y ∈ t.path ∨ y ∈ t.query ∨ y ∈ t.fragment ∨
        y = '/' ∨ y = ':' ∨ y = '?' ∨ y = '#' := fun y hy => by tauto
  have hp1 : ∀ y ∈ (if !t.path.isEmpty && !(t.path.headD ' ' = '/') then
      '/' :: t.path else t.path),
      y ∈ t.scheme ∨ y ∈ t.netloc ∨ y ∈ t.path ∨ y ∈ t.query ∨ y ∈ t.fragment ∨
        y = '/' ∨ y = ':' ∨ y = '?' ∨ y = '#' := by
    intro y hy
    split at hy
    · rcases List.mem_cons.mp hy with h | h
      · tauto
      · exact hpath y h
    · exact hpath y hy
  have hurl0 : ∀ y ∈ (if !t.netloc.isEmpty ||
        (!t.scheme.isEmpty && usesNetloc t.scheme && !(t.path.take 2 = ['/', '/'])) then
      ['/', '/'] ++ t.netloc ++
        (if !t.path.isEmpty && !(t.path.headD ' ' = '/') then '/' :: t.path else t.path)
    else t.path),
      y ∈ t.scheme ∨ y ∈ t.netloc ∨ y ∈ t.path ∨ y ∈ t.query ∨ y ∈ t.fragment ∨
        y = '/' ∨ y = ':' ∨ y = '?' ∨ y = '#' := by
    intro y hy
    split at hy
    · rcases List.mem_append.mp hy with h | h
      · rcases List.mem_append.mp h with h2 | h2
        · simp only [List.mem_cons, List.not_mem_nil, or_false] at h2
          tauto
        · tauto
      · exact hp1 y h
    · exact hpath y hy
  have hurl1 : ∀ y ∈ (if t.scheme.isEmpty then
      (if !t.netloc.isEmpty ||
          (!t.scheme.isEmpty && usesNetloc t.scheme && !(t.path.take 2 = ['/', '/'])) then
        ['/', '/'] ++ t.netloc ++
          (if !t.path.isEmpty && !(t.path.headD ' ' = '/') then '/' :: t.path else t.path)
      else t.path)
    else t.scheme ++ ':' ::
      (if !t.netloc.isEmpty ||
          (!t.scheme.isEmpty && usesNetloc t.scheme && !(t.path.take 2 = ['/', '/'])) then
        ['/', '/'] ++ t.netloc ++
          (if !t.path.isEmpty && !(t.path.headD ' ' = '/') then '/' :: t.path else t.path)
      else t.path)),
      y ∈ t.scheme ∨ y ∈ t.netloc ∨ y ∈ t.path ∨ y ∈ t.query ∨ y ∈ t.fragment ∨
        y = '/' ∨ y = ':' ∨ y = '?' ∨ y = '#' := by
    intro y hy
    split at hy
    · exact hurl0 y hy
    · rcases List.mem_append.mp hy with h | h
      · tauto
      · rcases List.mem_cons.mp h with h2 | h2
        · tauto
        · exact hurl0 y h2
  have hurl2 : ∀ y ∈ (if t.query.isEmpty then
      (if t.scheme.isEmpty then
        (if !t.netloc.isEmpty ||
            (!t.scheme.isEmpty && usesNetloc t.scheme && !(t.path.take 2 = ['/', '/'])) then
          ['/', '/'] ++ t.netloc ++
            (if !t.path.isEmpty && !(t.path.headD ' ' = '/') then '/' :: t.path else t.path)
        else t.path)
      else t.scheme ++ ':' ::
        (if !t.netloc.isEmpty ||
            (!t.scheme.isEmpty && usesNetloc t.scheme && !(t.path.take 2 = ['/', '/'])) then
          ['/', '/'] ++ t.netloc ++
            (if !t.path.isEmpty && !(t.path.headD ' ' = '/') then '/' :: t.path else t.path)
        else t.path))
    else
      (if t.scheme.isEmpty then
        (if !t.netloc.isEmpty ||
            (!t.scheme.isEmpty && usesNetloc t.scheme && !(t.path.take 2 = ['/', '/'])) then
          ['/', '/'] ++ t.netloc ++
            (if !t.path.isEmpty && !(t.path.headD ' ' = '/') then '/' :: t.path else t.path)
        else t.path)
      else t.scheme ++ ':' ::
        (if !t.netloc.isEmpty ||
            (!t.scheme.isEmpty && usesNetloc t.scheme && !(t.path.take 2 = ['/', '/'])) then
          ['/', '/'] ++ t.netloc ++
            (if !t.path.isEmpty && !(t.path.headD ' ' = '/') then '/' :: t.path else t.path)
        else t.path)) ++ '?' :: t.query),
      y ∈ t.scheme ∨ y ∈ t.netloc ∨ y ∈ t.path ∨ y ∈ t.query ∨ y ∈ t.fragment ∨
        y = '/' ∨ y = ':' ∨ y = '?' ∨ y = '#' := by
    intro y hy
    split at hy
    · exact hurl1 y hy
    · rcases List.mem_append.mp hy with h | h
      · exact hurl1 y h
      · rcases List.mem_cons.mp h with h2 | h2
        · tauto
        · tauto
  have hx2 : x ∈ (if t.fragment.isEmpty then
      (if t.query.isEmpty then
        (if t.scheme.isEmpty then
          (if !t.netloc.isEmpty ||
              (!t.scheme.isEmpty && usesNetloc t.scheme && !(t.path.take 2 = ['/', '/'])) then
            ['/', '/'] ++ t.netloc ++
              (if !t.path.isEmpty && !(t.path.headD ' ' = '/') then '/' :: t.path else t.path)
          else t.path)
        else t.scheme ++ ':' ::
          (if !t.netloc.isEmpty ||
              (!t.scheme.isEmpty && usesNetloc t.scheme && !(t.path.take 2 = ['/', '/'])) then
            ['/', '/'] ++ t.netloc ++
              (if !t.path.isEmpty && !(t.path.headD ' ' = '/') then '/' :: t.path else t.path)
          else t.path))
      else
        (if t.scheme.isEmpty then
          (if !t.netloc.isEmpty ||
              (!t.scheme.isEmpty && usesNetloc t.scheme && !(t.path.take 2 = ['/', '/'])) then
            ['/', '/'] ++ t.netloc ++
              (if !t.path.isEmpty && !(t.path.headD ' ' = '/') then '/' :: t.path else t.path)
          else t.path)
        else t.scheme ++ ':' ::
          (if !t.netloc.isEmpty ||
              (!t.scheme.isEmpty && usesNetloc t.scheme && !(t.path.take 2 = ['/', '/'])) then
            ['/', '/'] ++ t.netloc ++
              (if !t.path.isEmpty && !(t.path.headD ' ' = '/') then '/' :: t.path else t.path)
          else t.path)) ++ '?' :: t.query)
    else
      (if t.query.isEmpty then
        (if t.scheme.isEmpty then
          (if !t.netloc.isEmpty ||
              (!t.scheme.isEmpty && usesNetloc t.scheme && !(t.path.take 2 = ['/', '/'])) then
            ['/', '/'] ++ t.netloc ++
              (if !t.path.isEmpty && !(t.path.headD ' ' = '/') then '/' :: t.path else t.path)
          else t.path)
        else t.scheme ++ ':' ::
          (if !t.netloc.isEmpty ||
              (!t.scheme.isEmpty && usesNetloc t.scheme && !(t.path.take 2 = ['/', '/'])) then
            ['/', '/'] ++ t.netloc ++
              (if !t.path.isEmpty && !(t.path.headD ' ' = '/') then '/' :: t.path else t.path)
          else t.path))
      else
        (if t.scheme.isEmpty then
          (if !t.netloc.isEmpty ||
              (!t.scheme.isEmpty && usesNetloc t.scheme && !(t.path.take 2 = ['/', '/'])) then
            ['/', '/'] ++ t.netloc ++
              (if !t.path.isEmpty && !(t.path.headD ' ' = '/') then '/' :: t.path else t.path)
          else t.path)
        else t.scheme ++ ':' ::
          (if !t.netloc.isEmpty ||
              (!t.scheme.isEmpty && usesNetloc t.scheme && !(t.path.take 2 = ['/', '/'])) then
            ['/', '/'] ++ t.netloc ++
              (if !t.path.isEmpty && !(t.path.headD ' ' = '/') then '/' :: t.path else t.path)
          else t.path)) ++ '?' :: t.query) ++ '#' :: t.fragment) := hx
  clear hx
  split at hx2
  · exact hurl2 x hx2
  · rcases List.mem_append.mp hx2 with h | h
    · exact hurl2 x h
    · rcases List.mem_cons.mp h with h2 | h2
      · tauto
      · tauto

theorem pyUnquote_id_of_no_pct (s : Str) (h : s.contains '%' = false) :
    pyUnquote s = s := by
  unfold pyUnquote
  rw [h]
  rfl

theorem mem_map_plusToSpace (q : Str) (x : Char)
    (hx : x ∈ q.map (fun c => if c = '+' then ' ' else c)) :
    x = ' ' ∨ x ∈ q := by
  obtain ⟨e, he, hex⟩ := List.mem_map.mp hx
  by_cases hep : e = '+'
  · rw [hep] at hex
    simp at hex
    exact Or.inl hex.symm
  · rw [if_neg hep] at hex
    exact Or.inr (hex ▸ he)

theorem pyUnquotePlus_no_pct (q : Str) (h : '%' ∉ q) :
    pyUnquotePlus q = q.map (fun c => if c = '+' then ' ' else c) := by
  unfold pyUnquotePlus
  apply pyUnquote_id_of_no_pct
  apply contains_eq_false_of_not_mem
  intro hm
  rcases mem_map_plusToSpace q '%' hm with hsp | hq
  · exact absurd hsp (by decide)
  · exact h hq

/-! ### The port accessor and failure -/


theorem portD_ok_iff (t : SplitResult) :
    (∃ v, t.portD = Except.ok v) ↔ portFails t = false := by
  unfold SplitResult.portD portFails
  rcases t.hostinfo.2 with _ | p <;> dsimp only
  · simp
  · unfold validPortStr
    by_cases h1 : (!p.isEmpty && p.all isAsciiDigit) = true
    · rw [if_pos h1]
      by_cases h2 : digitsToNat p ≤ 65535
      · rw [if_pos h2]
        simp [h1, h2]
      · rw [if_neg h2]
        simp [h1, h2]
    · rw [if_neg h1]
      simp only [Bool.not_eq_true] at h1
      simp [h1]

theorem buildRecord_error_iff (parts : SplitResult) (q uq : Str)
    (up : SplitResult) :
    (∃ e, buildRecord parts q uq up = Except.error e) ↔
      (∃ e, parts.portD = Except.error e) := by
  unfold buildRecord
  simp only [bind, Except.bind]
  rcases hp : parts.portD with e | v
  · simp
  · simp

theorem pyStrip_mem (s : Str) (x : Char) (hx : x ∈ pyStrip s) : x ∈ s := by
  unfold pyStrip at hx
  rw [List.mem_reverse] at hx
  have h1 := (List.dropWhile_sublist _).subset hx
  rw [List.mem_reverse] at h1
  exact (List.dropWhile_sublist _).subset h1

theorem unwrapBrackets_mem (s : Str) (x : Char) (hx : x ∈ unwrapBrackets s) :
    x ∈ s := by
  unfold unwrapBrackets at hx
  split at hx
  · exact (List.drop_sublist _ _).subset
      ((List.dropLast_sublist _).subset (pyStrip_mem _ x hx))
  · exact hx

theorem unwrapMarker_mem (s : Str) (x : Char) (hx : x ∈ unwrapMarker s) :
    x ∈ s := by
  unfold unwrapMarker at hx
  split at hx
  · exact (List.drop_sublist _ _).subset (pyStrip_mem _ x hx)
  · exact hx

theorem pyUnwrap_mem (u : Str) (x : Char) (hx : x ∈ pyUnwrap u) : x ∈ u :=
  pyStrip_mem u x (unwrapBrackets_mem _ x (unwrapMarker_mem _ x hx))

theorem urlsplitD_not_mem (u : Str) (t : SplitResult)
    (h : urlsplitD u = Except.ok t) (x : Char)
    (hfix : ¬(97 ≤ x.toNat ∧ x.toNat ≤ 122)) (hxu : x ∉ u) :
    x ∉ t.scheme ∧ x ∉ t.netloc ∧ x ∉ t.path ∧ x ∉ t.query ∧ x ∉ t.fragment := by
  obtain ⟨hn, hp, hq, hf, hs⟩ := urlsplitD_mem u t h
  refine ⟨?_, fun hc => hxu (hn x hc), fun hc => hxu (hp x hc),
    fun hc => hxu (hq x hc), fun hc => hxu (hf x hc)⟩
  intro hc
  obtain ⟨e, he, hex⟩ := hs x hc
  have hee : e = x := asciiLowerChar_fix x hfix e hex.symm
  exact hxu (hee ▸ he)

theorem urlunsplit_not_mem (t : SplitResult) (x : Char)
    (hs : x ∉ t.scheme) (hn : x ∉ t.netloc) (hp : x ∉ t.path) (hq : x ∉ t.query)
    (hf : x ∉ t.fragment) (hsep : ¬(x = '/' ∨ x = ':' ∨ x = '?' ∨ x = '#')) :
    x ∉ urlunsplit t := by
  intro hx
  rcases urlunsplit_mem t x hx with h | h | h | h | h | h | h | h | h <;> tauto

theorem unquotedOf_not_mem (t : SplitResult) (x : Char)
    (hpctp : '%' ∉ t.path) (hpctq : '%' ∉ t.query)
    (hs : x ∉ t.scheme) (hn : x ∉ t.netloc) (hp : x ∉ t.path) (hq : x ∉ t.query)
    (hf : x ∉ t.fragment)
    (hsep : ¬(x = '/' ∨ x = ':' ∨ x = '?' ∨ x = '#' ∨ x = ' ')) :
    x ∉ unquotedOf t := by
  intro hx
  unfold unquotedOf at hx
  rw [pyUnquote_id_of_no_pct _ (contains_eq_false_of_not_mem _ _ hpctp),
      pyUnquotePlus_no_pct _ hpctq] at hx
  have hmem := urlunsplit_mem _ x hx
  dsimp only at hmem
  rcases hmem with h | h | h | h | h | h | h | h | h
  · exact hs h
  · exact hn h
  · exact hp h
  · rcases mem_map_plusToSpace t.query x h with h2 | h2
    · exact hsep (Or.inr (Or.inr (Or.inr (Or.inr h2))))
    · exact hq h2
  · exact hf h
  all_goals tauto

theorem parse_eq_of_splits (data : Str) (h : has_data data = true)
    (parts normalized uparts : SplitResult)
    (h1 : urlsplitD (pyUnwrap data) = Except.ok parts)
    (h2 : urlsplitD (urlunsplit parts) = Except.ok normalized)
    (h3 : urlsplitD (unquotedOf normalized) = Except.ok uparts) :
    parse data = Except.bind
      (buildRecord parts (quotedOf normalized) (unquotedOf normalized) uparts)
      (fun r => Except.ok (processOutput (PyDict.record r))) := by
  unfold parse
  rw [if_pos h]
  simp only [bind, Except.bind, h1, h2, h3]

/-- C2 counterexample input. -/
theorem c2_counterexample :
    parse (chars "http://[x/") = Except.error "Invalid IPv6 URL" := by rfl

/-- **C2** (amended): restricted to inputs free of percent signs and square
brackets (and ASCII, where the embedding of `_checknetloc` is faithful),
`parse` fails exactly when the input has data and the port subcomponent of
the netloc of the first split is present but not a valid port number.  On
unrestricted inputs the claim is false: bracket validation of the netloc is
a second, independent failure source (see the counterexample). -/
theorem c2_amended (data : Str)
    (hascii : ∀ c ∈ data, c.toNat < 128)
    (hpct : '%' ∉ data) (hlb : '[' ∉ data) (hrb : ']' ∉ data) :
    (∃ e, parse data = Except.error e) ↔
      (has_data data = true ∧
        ∃ parts, urlsplitD (pyUnwrap data) = Except.ok parts ∧
          portFails parts = true) := by
  have hlb1 : '[' ∉ pyUnwrap data := fun hm => hlb (pyUnwrap_mem data _ hm)
  have hrb1 : ']' ∉ pyUnwrap data := fun hm => hrb (pyUnwrap_mem data _ hm)
  have hpct1 : '%' ∉ pyUnwrap data := fun hm => hpct (pyUnwrap_mem data _ hm)
  obtain ⟨parts, h1⟩ := urlsplitD_ok_of_no_brackets _ hlb1 hrb1
  have hPp := urlsplitD_not_mem _ _ h1 '%' (by decide) hpct1
  have hLp := urlsplitD_not_mem _ _ h1 '[' (by decide) hlb1
  have hRp := urlsplitD_not_mem _ _ h1 ']' (by decide) hrb1
  have hLu2 : '[' ∉ urlunsplit parts :=
    urlunsplit_not_mem parts '[' hLp.1 hLp.2.1 hLp.2.2.1 hLp.2.2.2.1
      hLp.2.2.2.2 (by decide)
  have hRu2 : ']' ∉ urlunsplit parts :=
    urlunsplit_not_mem parts ']' hRp.1 hRp.2.1 hRp.2.2.1 hRp.2.2.2.1
      hRp.2.2.2.2 (by decide)
  have hPu2 : '%' ∉ urlunsplit parts :=
    urlunsplit_not_mem parts '%' hPp.1 hPp.2.1 hPp.2.2.1 hPp.2.2.2.1
      hPp.2.2.2.2 (by decide)
  obtain ⟨normalized, h2⟩ := urlsplitD_ok_of_no_brackets _ hLu2 hRu2
  have hPn := urlsplitD_not_mem _ _ h2 '%' (by decide) hPu2
  have hLn := urlsplitD_not_mem _ _ h2 '[' (by decide) hLu2
  have hRn := urlsplitD_not_mem _ _ h2 ']' (by decide) hRu2
  have hLu3 : '[' ∉ unquotedOf normalized :=
    unquotedOf_not_mem normalized '[' hPn.2.2.1 hPn.2.2.2.1 hLn.1 hLn.2.1
      hLn.2.2.1 hLn.2.2.2.1 hLn.2.2.2.2 (by decide)
  have hRu3 : ']' ∉ unquotedOf normalized :=
    unquotedOf_not_mem normalized ']' hPn.2.2.1 hPn.2.2.2.1 hRn.1 hRn.2.1
      hRn.2.2.1 hRn.2.2.2.1 hRn.2.2.2.2 (by decide)
  obtain ⟨uparts, h3⟩ := urlsplitD_ok_of_no_brackets _ hLu3 hRu3
  constructor
  · rintro ⟨e, he⟩
    by_cases hd : has_data data = true
    · refine ⟨hd, parts, h1, ?_⟩
      rw [parse_eq_of_splits data hd parts normalized uparts h1 h2 h3] at he
      rcases hb : buildRecord parts (quotedOf normalized)
          (unquotedOf normalized) uparts with eb | rb
      · obtain ⟨e2, he2⟩ := (buildRecord_error_iff _ _ _ _).mp ⟨eb, hb⟩
        by_contra hpf
        rw [Bool.not_eq_true] at hpf
        obtain ⟨v, hv⟩ := (portD_ok_iff parts).mpr hpf
        rw [hv] at he2
        exact absurd he2 (by simp)
      · rw [hb] at he
        simp [Except.bind] at he
    · exfalso
      simp only [parse, hd, if_false, Bool.false_eq_true] at he
      exact absurd he (by simp)
  · rintro ⟨hd, parts2, h12, hpf⟩
    rw [h1] at h12
    have hpp : parts2 = parts := by
      injection h12 with h12e
      exact h12e.symm
    subst hpp
    rcases hpd : parts2.portD with ep | vp
    · refine ⟨ep, ?_⟩
      rw [parse_eq_of_splits data hd parts2 normalized uparts h1 h2 h3]
      have hb : buildRecord parts2 (quotedOf normalized)
          (unquotedOf normalized) uparts = Except.error ep := by
        unfold buildRecord
        simp only [bind, Except.bind, hpd]
      rw [hb]
      rfl
    · exfalso
      have hok := (portD_ok_iff parts2).mp ⟨vp, hpd⟩
      rw [hpf] at hok
      exact absurd hok (by decide)

/-- C2 witness: the spec scenario input, all-ASCII with no percent or
bracket, on which `parse` fails and the first split's port is present and
invalid. -/
theorem c2_witness :
    (∀ c ∈ chars "http://host:notaport/", c.toNat < 128) ∧
    '%' ∉ chars "http://host:notaport/" ∧
    '[' ∉ chars "http://host:notaport/" ∧
    ']' ∉ chars "http://host:notaport/" ∧
    ∃ e, parse (chars "http://host:notaport/") = Except.error e :=
  ⟨by decide, by decide, by decide, by decide,
    (c2_amended (chars "http://host:notaport/") (by decide) (by decide)
        (by decide) (by decide)).mpr
      ⟨by rfl,
        SplitResult.mk (chars "http") (chars "host:notaport") (chars "/")
          [] [],
        by rfl, by rfl⟩⟩

theorem splitOnceChar_append (c : Char) (a b : Str) (h : c ∉ a) :
    splitOnceChar c (a ++ c :: b) = some (a, b) := by
  induction a with
  | nil => simp [splitOnceChar]
  | cons x xs ih =>
      have hxc : ¬x = c := fun he => h (he ▸ List.mem_cons_self x xs)
      have hx2 : c ∉ xs := fun hm => h (List.mem_cons_of_mem x hm)
      simp [splitOnceChar, hxc, ih hx2]

theorem splitAllChar_of_not_mem (c : Char) (a : Str) (h : c ∉ a) :
    splitAllChar c a = [a] := by
  induction a with
  | nil => rfl
  | cons x xs ih =>
      have hxc : ¬x = c := fun he => h (he ▸ List.mem_cons_self x xs)
      have hx2 : c ∉ xs := fun hm => h (List.mem_cons_of_mem x hm)
      simp [splitAllChar, hxc, ih hx2]

theorem splitAllChar_append (c : Char) (a rest : Str) (h : c ∉ a) :
    splitAllChar c (a ++ c :: rest) = a :: splitAllChar c rest := by
  induction a with
  | nil => simp [splitAllChar]
  | cons x xs ih =>
      have hxc : ¬x = c := fun he => h (he ▸ List.mem_cons_self x xs)
      have hx2 : c ∉ xs := fun hm => h (List.mem_cons_of_mem x hm)
      rw [List.cons_append]
      rw [show splitAllChar c (x :: (xs ++ c :: rest)) =
        if x = c then [] :: splitAllChar c (xs ++ c :: rest)
        else match splitAllChar c (xs ++ c :: rest) with
          | [] => [[x]]
          | y :: ys => (x :: y) :: ys from rfl]
      rw [if_neg hxc, ih hx2]

theorem map_plus_id (s : Str) (h : '+' ∉ s) :
    s.map (fun c => if c = '+' then ' ' else c) = s := by
  induction s with
  | nil => rfl
  | cons x xs ih =>
      have hxc : ¬x = '+' := fun he => h (he ▸ List.mem_cons_self x xs)
      have hx2 : '+' ∉ xs := fun hm => h (List.mem_cons_of_mem x hm)
      simp [hxc, ih hx2]

theorem qslField_token (k v : Str) (hk1 : '=' ∉ k) (hk2 : '%' ∉ k)
    (hk3 : '+' ∉ k) (hv1 : '%' ∉ v) (hv2 : '+' ∉ v) (hv3 : v ≠ []) :
    qslField (k ++ '=' :: v) = some (k, v) := by
  unfold qslField
  rw [splitOnceChar_append '=' k v hk1]
  have hve : v.isEmpty = false := by
    cases v with
    | nil => exact absurd rfl hv3
    | cons a b => rfl
  simp only [hve, Bool.false_eq_true, if_false]
  rw [map_plus_id k hk3, map_plus_id v hv2,
    pyUnquote_id_of_no_pct k (contains_eq_false_of_not_mem k '%' hk2),
    pyUnquote_id_of_no_pct v (contains_eq_false_of_not_mem v '%' hv1)]

theorem mem_qsInsert_iff (m : List (Str × List Str)) (k : Str) (v : Str)
    (k2 : Str) (v2 : Str) :
    (∃ vs, (k2, vs) ∈ qsInsert m k v ∧ v2 ∈ vs) ↔
      ((k2 = k ∧ v2 = v) ∨ ∃ vs, (k2, vs) ∈ m ∧ v2 ∈ vs) := by
  induction m with
  | nil =>
      constructor
      · rintro ⟨vs, hin, hv⟩
        simp only [qsInsert, List.mem_singleton, Prod.mk.injEq] at hin
        obtain ⟨hk, hvs⟩ := hin
        subst hvs
        simp only [List.mem_singleton] at hv
        exact Or.inl ⟨hk, hv⟩
      · rintro (⟨hk, hv⟩ | ⟨vs, hin, hv⟩)
        · exact ⟨[v], by simp [qsInsert, hk], by simp [hv]⟩
        · exact absurd hin (List.not_mem_nil _)
  | cons kv3 rest ih =>
      rcases kv3 with ⟨k3, vs3⟩
      unfold qsInsert
      split
      · next he =>
          subst he
          constructor
          · rintro ⟨vs, hin, hv⟩
            rcases List.mem_cons.mp hin with hin | hin
            · rw [Prod.mk.injEq] at hin
              obtain ⟨hk, hvs⟩ := hin
              subst hvs
              subst hk
              rw [List.mem_append, List.mem_singleton] at hv
              rcases hv with hv | hv
              · exact Or.inr ⟨vs3, List.mem_cons_self _ _, hv⟩
              · exact Or.inl ⟨rfl, hv⟩
            · exact Or.inr ⟨vs, List.mem_cons_of_mem _ hin, hv⟩
          · rintro (⟨hk, hv⟩ | ⟨vs, hin, hv⟩)
            · subst hk
              exact ⟨vs3 ++ [v], List.mem_cons_self _ _, by simp [hv]⟩
            · rcases List.mem_cons.mp hin with hin | hin
              · rw [Prod.mk.injEq] at hin
                obtain ⟨hk, hvs⟩ := hin
                subst hk
                subst hvs
                exact ⟨vs ++ [v], List.mem_cons_self _ _, by simp [hv]⟩
              · exact ⟨vs, List.mem_cons_of_mem _ hin, hv⟩
      · next hne =>
          constructor
          · rintro ⟨vs, hin, hv⟩
            rcases List.mem_cons.mp hin with hin | hin
            · rw [Prod.mk.injEq] at hin
              obtain ⟨hk, hvs⟩ := hin
              subst hvs
              exact Or.inr ⟨vs, hk ▸ List.mem_cons_self (k3, vs) rest, hv⟩
            · rcases ih.mp ⟨vs, hin, hv⟩ with h | ⟨vs4, hin4, hv4⟩
              · exact Or.inl h
              · exact Or.inr ⟨vs4, List.mem_cons_of_mem _ hin4, hv4⟩
          · rintro (⟨hk, hv⟩ | ⟨vs, hin, hv⟩)
            · obtain ⟨vs4, hin4, hv4⟩ := ih.mpr (Or.inl ⟨hk, hv⟩)
              exact ⟨vs4, List.mem_cons_of_mem _ hin4, hv4⟩
            · rcases List.mem_cons.mp hin with hin | hin
              · rw [Prod.mk.injEq] at hin
                obtain ⟨hk, hvs⟩ := hin
                subst hk
                subst hvs
                exact ⟨vs, List.mem_cons_self _ _, hv⟩
              · obtain ⟨vs4, hin4, hv4⟩ := ih.mpr (Or.inr ⟨vs, hin, hv⟩)
                exact ⟨vs4, List.mem_cons_of_mem _ hin4, hv4⟩

theorem mem_qsFold_iff (L : List (Str × Str)) (m0 : List (Str × List Str))
    (k : Str) (v : Str) :
    (∃ vs, (k, vs) ∈ L.foldl (fun m kv => qsInsert m kv.1 kv.2) m0 ∧ v ∈ vs) ↔
      ((k, v) ∈ L ∨ ∃ vs, (k, vs) ∈ m0 ∧ v ∈ vs) := by
  induction L generalizing m0 with
  | nil => simp
  | cons kv L2 ih =>
      rw [List.foldl_cons, ih, mem_qsInsert_iff]
      simp only [List.mem_cons, Prod.ext_iff]
      tauto

theorem qs_qsl_consistent (q : Str) (k : Str) (v : Str) :
    (k, v) ∈ pyParseQsl q ↔ ∃ vs, (k, vs) ∈ pyParseQs q ∧ v ∈ vs := by
  unfold pyParseQs
  rw [mem_qsFold_iff]
  simp

theorem pyParseQsl_shape (k1 v1 v2 k2 v3 : Str)
    (hamp : ∀ s ∈ [k1, v1, v2, k2, v3], '&' ∉ s)
    (hpct : ∀ s ∈ [k1, v1, v2, k2, v3], '%' ∉ s)
    (hplus : ∀ s ∈ [k1, v1, v2, k2, v3], '+' ∉ s)
    (heq1 : '=' ∉ k1) (heq2 : '=' ∉ k2)
    (hv1 : v1 ≠ []) (hv2 : v2 ≠ []) (hv3 : v3 ≠ []) :
    pyParseQsl (k1 ++ '=' :: v1 ++ '&' :: k1 ++ '=' :: v2 ++ '&' :: k2 ++ '=' :: v3) =
      [(k1, v1), (k1, v2), (k2, v3)] := by
  have hK1 : '&' ∉ k1 := hamp k1 (by simp)
  have hV1 : '&' ∉ v1 := hamp v1 (by simp)
  have hV2 : '&' ∉ v2 := hamp v2 (by simp)
  have hK2 : '&' ∉ k2 := hamp k2 (by simp)
  have hV3 : '&' ∉ v3 := hamp v3 (by simp)
  have hc1 : '&' ∉ k1 ++ '=' :: v1 := by
    intro hm
    rcases List.mem_append.mp hm with hm | hm
    · exact hK1 hm
    · rcases List.mem_cons.mp hm with hm | hm
      · exact absurd hm (by decide)
      · exact hV1 hm
  have hc2 : '&' ∉ k1 ++ '=' :: v2 := by
    intro hm
    rcases List.mem_append.mp hm with hm | hm
    · exact hK1 hm
    · rcases List.mem_cons.mp hm with hm | hm
      · exact absurd hm (by decide)
      · exact hV2 hm
  have hc3 : '&' ∉ k2 ++ '=' :: v3 := by
    intro hm
    rcases List.mem_append.mp hm with hm | hm
    · exact hK2 hm
    · rcases List.mem_cons.mp hm with hm | hm
      · exact absurd hm (by decide)
      · exact hV3 hm
  have hassoc : k1 ++ '=' :: v1 ++ '&' :: k1 ++ '=' :: v2 ++ '&' :: k2 ++ '=' :: v3 =
      (k1 ++ '=' :: v1) ++ '&' :: ((k1 ++ '=' :: v2) ++ '&' :: (k2 ++ '=' :: v3)) := by
    simp
  have hne : (k1 ++ '=' :: v1 ++ '&' :: k1 ++ '=' :: v2 ++ '&' :: k2 ++ '=' :: v3).isEmpty = false := by
    cases k1 <;> rfl
  have hch1 : (k1 ++ '=' :: v1).isEmpty = false := by cases k1 <;> rfl
  have hch2 : (k1 ++ '=' :: v2).isEmpty = false := by cases k1 <;> rfl
  have hch3 : (k2 ++ '=' :: v3).isEmpty = false := by cases k2 <;> rfl
  unfold pyParseQsl
  rw [hne]
  simp only [Bool.false_eq_true, if_false]
  rw [hassoc, splitAllChar_append '&' _ _ hc1, splitAllChar_append '&' _ _ hc2,
    splitAllChar_of_not_mem '&' _ hc3]
  simp only [List.filterMap, hch1, hch2, hch3, Bool.false_eq_true, if_false]
  rw [qslField_token k1 v1 heq1 (hpct k1 (by simp)) (hplus k1 (by simp))
      (hpct v1 (by simp)) (hplus v1 (by simp)) hv1,
    qslField_token k1 v2 heq1 (hpct k1 (by simp)) (hplus k1 (by simp))
      (hpct v2 (by simp)) (hplus v2 (by simp)) hv2,
    qslField_token k2 v3 heq2 (hpct k2 (by simp)) (hplus k2 (by simp))
      (hpct v3 (by simp)) (hplus v3 (by simp)) hv3]

theorem pyParseQs_shape (k1 v1 v2 k2 v3 : Str)
    (hamp : ∀ s ∈ [k1, v1, v2, k2, v3], '&' ∉ s)
    (hpct : ∀ s ∈ [k1, v1, v2, k2, v3], '%' ∉ s)
    (hplus : ∀ s ∈ [k1, v1, v2, k2, v3], '+' ∉ s)
    (heq1 : '=' ∉ k1) (heq2 : '=' ∉ k2)
    (hv1 : v1 ≠ []) (hv2 : v2 ≠ []) (hv3 : v3 ≠ []) (hk12 : k1 ≠ k2) :
    pyParseQs (k1 ++ '=' :: v1 ++ '&' :: k1 ++ '=' :: v2 ++ '&' :: k2 ++ '=' :: v3) =
      [(k1, [v1, v2]), (k2, [v3])] := by
  unfold pyParseQs
  rw [pyParseQsl_shape k1 v1 v2 k2 v3 hamp hpct hplus heq1 heq2 hv1 hv2 hv3]
  simp only [List.foldl_cons, List.foldl_nil, qsInsert, if_pos rfl]
  rw [if_neg hk12]
  simp

/-- **C4** (confirmed): (a) when the re-split unquoted URL has a query of the
shape `k1=v1&k1=v2&k2=v3` built from plain tokens (no `&`, `%`, `+` anywhere,
no `=` in the keys, nonempty values, distinct keys), the record's `query`
field maps `k1` to `[v1, v2]` and `k2` to `[v3]` in insertion order and
`query_list` is exactly the three pairs in order; (b) unconditionally,
`query` and `query_list` are mutually consistent: a pair occurs in
`parse_qsl`'s output exactly when its value occurs in the value sequence of
its key in `parse_qs`'s output. -/
theorem c4_theorem :
    (∀ data r parts normalized uparts k1 v1 v2 k2 v3,
      parse data = Except.ok (PyDict.record r) →
      urlsplitD (pyUnwrap data) = Except.ok parts →
      urlsplitD (urlunsplit parts) = Except.ok normalized →
      urlsplitD (unquotedOf normalized) = Except.ok uparts →
      uparts.query =
        k1 ++ '=' :: v1 ++ '&' :: k1 ++ '=' :: v2 ++ '&' :: k2 ++ '=' :: v3 →
      (∀ s ∈ [k1, v1, v2, k2, v3], '&' ∉ s) →
      (∀ s ∈ [k1, v1, v2, k2, v3], '%' ∉ s) →
      (∀ s ∈ [k1, v1, v2, k2, v3], '+' ∉ s) →
      '=' ∉ k1 → '=' ∉ k2 → v1 ≠ [] → v2 ≠ [] → v3 ≠ [] → k1 ≠ k2 →
      r.query = some [(k1, [v1, v2]), (k2, [v3])] ∧
        r.query_list = some [(k1, v1), (k1, v2), (k2, v3)]) ∧
    ∀ q k v, (k, v) ∈ pyParseQsl q ↔ ∃ vs, (k, vs) ∈ pyParseQs q ∧ v ∈ vs := by
  constructor
  · intro data r parts normalized uparts k1 v1 v2 k2 v3 hok h1 h2 h3 hshape
      hamp hpct hplus heq1 heq2 hv1 hv2 hv3 hk12
    obtain ⟨hd, parts2, normalized2, uparts, h1b, h2b, h3b, hbr⟩ :=
      parse_ok_inv data r hok
    rw [h1] at h1b
    injection h1b with h1e
    subst h1e
    rw [h2] at h2b
    injection h2b with h2e
    subst h2e
    rw [h3] at h3b
    injection h3b with h3e
    subst h3e
    obtain ⟨port, hport, hr⟩ := buildRecord_ok_inv _ _ _ _ _ hbr
    subst hr
    have hqne : uparts.query.isEmpty = false := by
      rw [hshape]
      cases k1 <;> rfl
    have hqs := pyParseQs_shape k1 v1 v2 k2 v3 hamp hpct hplus heq1 heq2
      hv1 hv2 hv3 hk12
    have hqsl := pyParseQsl_shape k1 v1 v2 k2 v3 hamp hpct hplus heq1 heq2
      hv1 hv2 hv3
    constructor
    · show (if uparts.query.isEmpty then none
        else orNoneList (pyParseQs uparts.query)) = _
      rw [hqne]
      simp only [Bool.false_eq_true, if_false]
      rw [hshape, hqs]
      rfl
    · show (if uparts.query.isEmpty then none
        else orNoneList (pyParseQsl uparts.query)) = _
      rw [hqne]
      simp only [Bool.false_eq_true, if_false]
      rw [hshape, hqsl]
      rfl
  · exact qs_qsl_consistent

/-- C4 witness: the spec scenario shape at a concrete input. -/
theorem c4_witness :
    ∃ r, parse (chars "http://e/p?a=1&a=2&b=3") = Except.ok (PyDict.record r) ∧
      r.query = some [(chars "a", [chars "1", chars "2"]),
        (chars "b", [chars "3"])] ∧
      r.query_list = some [(chars "a", chars "1"), (chars "a", chars "2"),
        (chars "b", chars "3")] ∧
      ((chars "b", chars "3") ∈ pyParseQsl (chars "a=1&a=2&b=3") ↔
        ∃ vs, (chars "b", vs) ∈ pyParseQs (chars "a=1&a=2&b=3") ∧
          chars "3" ∈ vs) := by
  have hmain := c4_theorem.1 (chars "http://e/p?a=1&a=2&b=3") _
    (SplitResult.mk (chars "http") (chars "e") (chars "/p")
      (chars "a=1&a=2&b=3") [])
    (SplitResult.mk (chars "http") (chars "e") (chars "/p")
      (chars "a=1&a=2&b=3") [])
    (SplitResult.mk (chars "http") (chars "e") (chars "/p")
      (chars "a=1&a=2&b=3") [])
    (chars "a") (chars "1") (chars "2") (chars "b") (chars "3")
    rfl rfl rfl rfl rfl (by decide) (by decide) (by decide) (by decide)
    (by decide) (by decide) (by decide) (by decide) (by decide)
  exact ⟨_, rfl, hmain.1, hmain.2,
    c4_theorem.2 (chars "a=1&a=2&b=3") (chars "b") (chars "3")⟩

theorem splitOnceChar_none_of_not_mem (c : Char) (l : Str) (h : c ∉ l) :
    splitOnceChar c l = none := by
  induction l with
  | nil => rfl
  | cons a rest ih =>
      have hac : ¬a = c := fun he => h (he ▸ List.mem_cons_self a rest)
      have h2 : c ∉ rest := fun hm => h (List.mem_cons_of_mem a hm)
      simp [splitOnceChar, hac, ih h2]

theorem splitOnceChar_append_shift (c : Char) (a l : Str) (h : c ∉ a) :
    splitOnceChar c (a ++ l) =
      match splitOnceChar c l with
      | none => none
      | some (p, q) => some (a ++ p, q) := by
  induction a with
  | nil =>
      simp only [List.nil_append]
      rcases splitOnceChar c l with _ | ⟨p, q⟩ <;> rfl
  | cons x xs ih =>
      have hxc : ¬x = c := fun he => h (he ▸ List.mem_cons_self x xs)
      have hx2 : c ∉ xs := fun hm => h (List.mem_cons_of_mem x hm)
      rw [List.cons_append]
      rw [show splitOnceChar c (x :: (xs ++ l)) =
        if x = c then some ([], xs ++ l)
        else match splitOnceChar c (xs ++ l) with
          | none => none
          | some (p, q) => some (x :: p, q) from rfl]
      rw [if_neg hxc, ih hx2]
      rcases splitOnceChar c l with _ | ⟨p, q⟩ <;> rfl

theorem fragSplit_attach (x f : Str) (hx : '#' ∉ x) :
    fragSplit (x ++ (if f.isEmpty then [] else '#' :: f)) = (x, f) := by
  unfold fragSplit
  rcases hf : f with _ | ⟨a, b⟩
  · simp only [List.isEmpty_nil, if_true, List.append_nil]
    rw [splitOnceChar_none_of_not_mem '#' x hx]
  · simp only [List.isEmpty_cons, Bool.false_eq_true, if_false]
    rw [splitOnceChar_append '#' x (a :: b) hx]

theorem querySplit_attach (x q : Str) (hx : '?' ∉ x) :
    querySplit (x ++ (if q.isEmpty then [] else '?' :: q)) = (x, q) := by
  unfold querySplit
  rcases hq : q with _ | ⟨a, b⟩
  · simp only [List.isEmpty_nil, if_true, List.append_nil]
    rw [splitOnceChar_none_of_not_mem '?' x hx]
  · simp only [List.isEmpty_cons, Bool.false_eq_true, if_false]
    rw [splitOnceChar_append '?' x (a :: b) hx]

theorem splitNetloc_append (n X : Str)
    (hn : ∀ c ∈ n, ¬(c = '/' ∨ c = '?' ∨ c = '#'))
    (hX : X = [] ∨ X.headD ' ' = '/' ∨ X.headD ' ' = '?' ∨ X.headD ' ' = '#') :
    splitNetloc (n ++ X) = (n, X) := by
  induction n with
  | nil =>
      simp only [List.nil_append]
      rcases hX with hX | hX
      · subst hX; rfl
      · rcases X with _ | ⟨a, b⟩
        · rfl
        · simp only [List.headD_cons] at hX
          unfold splitNetloc
          rw [if_pos hX]
  | cons x xs ih =>
      have hx : ¬(x = '/' ∨ x = '?' ∨ x = '#') := hn x (List.mem_cons_self x xs)
      have h2 : ∀ c ∈ xs, ¬(c = '/' ∨ c = '?' ∨ c = '#') :=
        fun c hc => hn c (List.mem_cons_of_mem x hc)
      rw [List.cons_append]
      unfold splitNetloc
      rw [if_neg hx]
      simp only [ih h2]

theorem schemeSplit_attach (s rest : Str) (hne : s ≠ [])
    (halpha : isAsciiAlpha (s.headD ' ') = true)
    (hall : s.all schemeChar = true) (hlow : asciiLower s = s) :
    schemeSplit (s ++ ':' :: rest) = (s, rest) := by
  have hcol : ':' ∉ s := by
    intro hm
    have := List.all_eq_true.mp hall _ hm
    exact absurd this (by decide)
  unfold schemeSplit
  rw [splitOnceChar_append ':' s rest hcol]
  have hse : s.isEmpty = false := by
    cases s
    · exact absurd rfl hne
    · rfl
  dsimp only
  rw [if_pos (show (!s.isEmpty && isAsciiAlpha (s.headD ' ') &&
    s.all schemeChar) = true by rw [hse, halpha, hall]; rfl)]
  rw [hlow]

theorem schemeSplit_id_of_bad (u : Str)
    (h : ∀ pre post, splitOnceChar ':' u = some (pre, post) →
      (!pre.isEmpty && isAsciiAlpha (pre.headD ' ') && pre.all schemeChar) = false) :
    schemeSplit u = ([], u) := by
  unfold schemeSplit
  rcases hsp : splitOnceChar ':' u with _ | ⟨pre, post⟩
  · rfl
  · dsimp only
    rw [h pre post hsp]
    rfl

theorem all_false_of_mem (l : Str) (P : Char → Bool) (a : Char) (ha : a ∈ l)
    (hPa : P a = false) : l.all P = false := by
  rw [Bool.eq_false_iff]
  intro hc
  rw [List.all_eq_true] at hc
  rw [hc a ha] at hPa
  exact absurd hPa (by decide)

theorem splitOnce_cons_shape (c a : Char) (rest x y : Str) (hac : ¬a = c)
    (h : splitOnceChar c (a :: rest) = some (x, y)) : ∃ x2, x = a :: x2 := by
  rw [show splitOnceChar c (a :: rest) =
    if a = c then some ([], rest)
    else match splitOnceChar c rest with
      | none => none
      | some (u, v) => some (a :: u, v) from rfl, if_neg hac] at h
  rcases hsp : splitOnceChar c rest with _ | ⟨u, v⟩ <;> rw [hsp] at h
  · exact absurd h (by simp)
  · simp only [Option.some.injEq, Prod.mk.injEq] at h
    exact ⟨u, h.1.symm⟩

theorem schemeSplit_cons_nonscheme (a : Char) (rest : Str)
    (ha : schemeChar a = false) (hac : ¬a = ':') :
    schemeSplit (a :: rest) = ([], a :: rest) := by
  apply schemeSplit_id_of_bad
  intro pre post hsp
  obtain ⟨x2, hx⟩ := splitOnce_cons_shape ':' a rest pre post hac hsp
  subst hx
  rw [all_false_of_mem (a :: x2) schemeChar a (List.mem_cons_self a x2) ha]
  simp

theorem take2_ne_slashes (p X : Str) (hp : ¬p.take 2 = ['/', '/'])
    (hX : X = [] ∨ X.headD ' ' = '?' ∨ X.headD ' ' = '#') :
    ¬((p ++ X).take 2 = ['/', '/']) := by
  rcases p with _ | ⟨a, p2⟩
  · rcases hX with hX | hX
    · subst hX; simp
    · rcases X with _ | ⟨b, X2⟩
      · simp
      · simp only [List.headD_cons] at hX
        intro hc
        simp only [List.nil_append] at hc
        rcases X2 with _ | ⟨d, X3⟩ <;> simp only [List.take] at hc
        · exact absurd hc (by simp)
        · rw [List.cons.injEq] at hc
          rcases hX with hX | hX <;> rw [hX] at hc <;>
            exact absurd hc.1 (by decide)
  · rcases p2 with _ | ⟨b, p3⟩
    · rcases hX with hX | hX
      · subst hX; simp
      · rcases X with _ | ⟨c, X2⟩
        · simp
        · simp only [List.headD_cons] at hX
          intro hc
          simp only [List.cons_append, List.nil_append, List.take,
            List.cons.injEq] at hc
          rcases hX with hX | hX <;> rw [hX] at hc <;>
            exact absurd hc.2.1 (by decide)
    · intro hc
      simp only [List.cons_append, List.take, List.cons.injEq] at hc
      exact hp (by simp [List.take, hc.1, hc.2.1])

theorem alpha_gt_ctl (c : Char) (h : isAsciiAlpha c = true) :
    ¬(c.toNat ≤ 0x20) := by
  unfold isAsciiAlpha isAsciiUpper isAsciiLowerC at h
  simp only [Bool.or_eq_true, decide_eq_true_eq] at h
  omega

theorem sanitizeUrl_eq_self (u : Str)
    (hall : ∀ c ∈ u, ¬(c = '\t' ∨ c = '\r' ∨ c = '\n'))
    (hhead : u = [] ∨ ¬((u.headD '/').toNat ≤ 0x20)) :
    sanitizeUrl u = u := by
  unfold sanitizeUrl
  have hdrop : u.dropWhile (fun c => decide (c.toNat ≤ 0x20)) = u := by
    rcases u with _ | ⟨a, l⟩
    · rfl
    · rcases hhead with h | h
      · exact absurd h (by simp)
      · simp only [List.headD_cons] at h
        rw [List.dropWhile_cons_of_neg]
        simp [h]
  rw [hdrop]
  rw [List.filter_eq_self.mpr]
  intro a ha
  simpa using hall a ha


theorem urlsplit_unsplit_id (t : SplitResult) (h : splitStable t) :
    urlsplitD (urlunsplit t) = Except.ok t := by
  obtain ⟨s, n, p, q, f⟩ := t
  obtain ⟨hws, hsch, hnet, hqp, hfp, hfq, hB, hA⟩ := h
  dsimp only at hws hsch hnet hqp hfp hfq hB hA
  have hws2 : ∀ c, (c ∈ s ∨ c ∈ n ∨ c ∈ p ∨ c ∈ q ∨ c ∈ f) →
      ¬(c = '\t' ∨ c = '\r' ∨ c = '\n') := by
    intro c hc
    apply hws c
    simp only [List.mem_append, or_assoc]
    exact hc
  have hall0 : ∀ c ∈ urlunsplit (SplitResult.mk s n p q f),
      ¬(c = '\t' ∨ c = '\r' ∨ c = '\n') := by
    intro c hc
    rcases urlunsplit_mem _ c hc with h | h | h | h | h | h | h | h | h
    · exact hws2 c (Or.inl h)
    · exact hws2 c (Or.inr (Or.inl h))
    · exact hws2 c (Or.inr (Or.inr (Or.inl h)))
    · exact hws2 c (Or.inr (Or.inr (Or.inr (Or.inl h))))
    · exact hws2 c (Or.inr (Or.inr (Or.inr (Or.inr h))))
    · subst h; decide
    · subst h; decide
    · subst h; decide
    · subst h; decide
  have hcontq : '#' ∉ p ++ (if q.isEmpty then [] else '?' :: q) := by
    intro hm
    rcases List.mem_append.mp hm with hm | hm
    · exact hfp hm
    · rcases hq2 : q with _ | ⟨b, q2⟩
      · rw [hq2] at hm; simp at hm
      · rw [hq2] at hm
        simp only [List.isEmpty_cons, Bool.false_eq_true, if_false] at hm
        rcases List.mem_cons.mp hm with hm | hm
        · exact absurd hm (by decide)
        · exact hfq (hq2 ▸ hm)
  have hXqf : (if q.isEmpty then [] else '?' :: q) ++
      (if f.isEmpty then [] else '#' :: f) = [] ∨
      ∃ d rest2, (if q.isEmpty then [] else '?' :: q) ++
        (if f.isEmpty then [] else '#' :: f) = d :: rest2 ∧
        (d = '?' ∨ d = '#') := by
    rcases q with _ | ⟨b, q2⟩
    · rcases f with _ | ⟨c, f2⟩
      · left; simp
      · exact Or.inr ⟨'#', c :: f2, by simp, Or.inr rfl⟩
    · exact Or.inr ⟨'?', (b :: q2) ++ (if f.isEmpty then [] else '#' :: f),
        by simp, Or.inl rfl⟩
  by_cases hn : n = []
  · -- no netloc: the url is scheme? ++ path ++ query? ++ fragment?
    obtain ⟨hp2, huse, hcolon, hhead⟩ := hB hn
    subst hn
    have hE : urlunsplit (SplitResult.mk s [] p q f) =
        (if s.isEmpty then [] else s ++ [':']) ++
          (p ++ ((if q.isEmpty then [] else '?' :: q) ++
            (if f.isEmpty then [] else '#' :: f))) := by
      have hc1 : (!List.isEmpty ([] : Str) ||
          (!s.isEmpty && usesNetloc s && !(p.take 2 = ['/', '/']))) = false := by
        rcases huse with h | h
        · subst h; rfl
        · rcases s with _ | ⟨a, s2⟩
          · rfl
          · simp [h]
      unfold urlunsplit
      dsimp only
      rw [hc1]
      simp only [Bool.false_eq_true, if_false]
      by_cases hs : s.isEmpty <;> by_cases hq : q.isEmpty <;>
        by_cases hf : f.isEmpty <;>
        simp [hs, hq, hf, List.append_assoc]
    have hXshape : p ++ ((if q.isEmpty then [] else '?' :: q) ++
        (if f.isEmpty then [] else '#' :: f)) = [] ∨
        ¬((p ++ ((if q.isEmpty then [] else '?' :: q) ++
          (if f.isEmpty then [] else '#' :: f))).headD '/').toNat ≤ 0x20 ∨
        True := Or.inr (Or.inr trivial)
    have hheadE : (if s.isEmpty then [] else s ++ [':']) ++
        (p ++ ((if q.isEmpty then [] else '?' :: q) ++
          (if f.isEmpty then [] else '#' :: f))) = [] ∨
        ¬((((if s.isEmpty then [] else s ++ [':']) ++
          (p ++ ((if q.isEmpty then [] else '?' :: q) ++
            (if f.isEmpty then [] else '#' :: f)))).headD '/').toNat ≤ 0x20) := by
      rcases s with _ | ⟨a, s2⟩
      · simp only [List.isEmpty_nil, if_true, List.nil_append]
        rcases p with _ | ⟨b, p3⟩
        · simp only [List.nil_append]
          rcases hXqf with hX | ⟨d, rest2, hXl, hd⟩
          · exact Or.inl hX
          · right
            rw [hXl]
            simp only [List.headD_cons]
            rcases hd with hd | hd <;> rw [hd] <;> decide
        · rcases hhead rfl with hp0 | hp0
          · exact absurd hp0 (by simp)
          · right
            simpa using hp0
      · right
        rcases hsch with h | ⟨ha, h2, h3⟩
        · exact absurd h (by simp)
        · simp only [List.headD_cons] at ha
          simp only [List.isEmpty_cons, Bool.false_eq_true, if_false,
            List.cons_append, List.headD_cons]
          exact alpha_gt_ctl a ha
    rw [hE]
    unfold urlsplitD
    simp only [bind, Except.bind]
    rw [sanitizeUrl_eq_self _ (hE ▸ hall0) hheadE]
    have hss : schemeSplit ((if s.isEmpty then [] else s ++ [':']) ++
        (p ++ ((if q.isEmpty then [] else '?' :: q) ++
          (if f.isEmpty then [] else '#' :: f)))) =
        (s, p ++ ((if q.isEmpty then [] else '?' :: q) ++
          (if f.isEmpty then [] else '#' :: f))) := by
      rcases s with _ | ⟨a, s2⟩
      · simp only [List.isEmpty_nil, if_true, List.nil_append]
        apply schemeSplit_id_of_bad
        intro pre post hsp
        rw [splitOnceChar_append_shift ':' p _ (hcolon rfl)] at hsp
        rcases hsp2 : splitOnceChar ':'
            ((if q.isEmpty then [] else '?' :: q) ++
              (if f.isEmpty then [] else '#' :: f)) with _ | ⟨x, y⟩ <;>
          rw [hsp2] at hsp
        · exact absurd hsp (by simp)
        · simp only [Option.some.injEq, Prod.mk.injEq] at hsp
          rcases hXqf with hX | ⟨d, rest2, hXl, hd⟩
          · rw [hX, splitOnceChar_none_of_not_mem ':' []
              (List.not_mem_nil ':')] at hsp2
            exact absurd hsp2 (by simp)
          · rw [hXl] at hsp2
            have hd2 : ¬d = ':' := by
              rcases hd with hd | hd <;> rw [hd] <;> decide
            have hd1 : schemeChar d = false := by
              rcases hd with hd | hd <;> rw [hd] <;> decide
            obtain ⟨x2, hx2⟩ := splitOnce_cons_shape ':' d rest2 x y hd2 hsp2
            rw [← hsp.1, hx2]
            rw [all_false_of_mem (p ++ d :: x2) schemeChar d
              (List.mem_append_right p (List.mem_cons_self d x2)) hd1]
            simp
      · simp only [List.isEmpty_cons, Bool.false_eq_true, if_false]
        rcases hsch with h | ⟨ha, h2, h3⟩
        · exact absurd h (by simp)
        · rw [List.append_assoc, List.singleton_append]
          exact schemeSplit_attach (a :: s2) _ (by simp) ha h2 h3
    rw [hss]
    have hXqf2 : (if q.isEmpty then [] else '?' :: q) ++
        (if f.isEmpty then [] else '#' :: f) = [] ∨
        (((if q.isEmpty then [] else '?' :: q) ++
          (if f.isEmpty then [] else '#' :: f)).headD ' ' = '?' ∨
         ((if q.isEmpty then [] else '?' :: q) ++
          (if f.isEmpty then [] else '#' :: f)).headD ' ' = '#') := by
      rcases hXqf with hX | ⟨d, rest2, hXl, hd⟩
      · exact Or.inl hX
      · right
        rw [hXl]
        simp only [List.headD_cons]
        exact hd
    have hnl : netlocSplitD (p ++ ((if q.isEmpty then [] else '?' :: q) ++
        (if f.isEmpty then [] else '#' :: f))) =
        Except.ok ([], p ++ ((if q.isEmpty then [] else '?' :: q) ++
          (if f.isEmpty then [] else '#' :: f))) := by
      unfold netlocSplitD
      rw [if_neg]
      · rfl
      · exact take2_ne_slashes p _ hp2 hXqf2
    rw [hnl]
    simp only
    rw [← List.append_assoc]
    rw [fragSplit_attach (p ++ (if q.isEmpty then [] else '?' :: q)) f hcontq]
    simp only
    rw [querySplit_attach p q hqp]
  · -- netloc present: the url is scheme? ++ // ++ netloc ++ path ++ q? ++ f?
    have hA2 := hA hn
    have hE : urlunsplit (SplitResult.mk s n p q f) =
        (if s.isEmpty then [] else s ++ [':']) ++
          ('/' :: '/' :: (n ++ (p ++ ((if q.isEmpty then [] else '?' :: q) ++
            (if f.isEmpty then [] else '#' :: f))))) := by
      have hc1 : (!n.isEmpty ||
          (!s.isEmpty && usesNetloc s && !(p.take 2 = ['/', '/']))) = true := by
        rcases n with _ | ⟨a, n2⟩
        · exact absurd rfl hn
        · rfl
      have hc2 : (!p.isEmpty && !(p.headD ' ' = '/')) = false := by
        rcases hA2 with h | h
        · subst h; rfl
        · rcases p with _ | ⟨a, p2⟩
          · rfl
          · simp only [List.headD_cons] at h
            simp [h]
      unfold urlunsplit
      dsimp only
      rw [if_pos hc1, hc2]
      simp only [Bool.false_eq_true, if_false]
      by_cases hs : s.isEmpty <;> by_cases hq : q.isEmpty <;>
        by_cases hf : f.isEmpty <;>
        simp [hs, hq, hf, List.append_assoc]
    have hheadE : (if s.isEmpty then [] else s ++ [':']) ++
        ('/' :: '/' :: (n ++ (p ++ ((if q.isEmpty then [] else '?' :: q) ++
          (if f.isEmpty then [] else '#' :: f))))) = [] ∨
        ¬((((if s.isEmpty then [] else s ++ [':']) ++
          ('/' :: '/' :: (n ++ (p ++ ((if q.isEmpty then [] else '?' :: q) ++
            (if f.isEmpty then [] else '#' :: f)))))).headD '/').toNat ≤ 0x20) := by
      right
      rcases s with _ | ⟨a, s2⟩
      · simp only [List.isEmpty_nil, if_true, List.nil_append, List.headD_cons]
        decide
      · rcases hsch with h | ⟨ha, h2, h3⟩
        · exact absurd h (by simp)
        · simp only [List.headD_cons] at ha
          simp only [List.isEmpty_cons, Bool.false_eq_true, if_false,
            List.cons_append, List.headD_cons]
          exact alpha_gt_ctl a ha
    rw [hE]
    unfold urlsplitD
    simp only [bind, Except.bind]
    rw [sanitizeUrl_eq_self _ (hE ▸ hall0) hheadE]
    have hss : schemeSplit ((if s.isEmpty then [] else s ++ [':']) ++
        ('/' :: '/' :: (n ++ (p ++ ((if q.isEmpty then [] else '?' :: q) ++
          (if f.isEmpty then [] else '#' :: f)))))) =
        (s, '/' :: '/' :: (n ++ (p ++ ((if q.isEmpty then [] else '?' :: q) ++
          (if f.isEmpty then [] else '#' :: f))))) := by
      rcases s with _ | ⟨a, s2⟩
      · simp only [List.isEmpty_nil, if_true, List.nil_append]
        exact schemeSplit_cons_nonscheme '/' _ (by decide) (by decide)
      · simp only [List.isEmpty_cons, Bool.false_eq_true, if_false]
        rcases hsch with h | ⟨ha, h2, h3⟩
        · exact absurd h (by simp)
        · rw [List.append_assoc, List.singleton_append]
          exact schemeSplit_attach (a :: s2) _ (by simp) ha h2 h3
    rw [hss]
    have hnet2 : ∀ c ∈ n, ¬(c = '/' ∨ c = '?' ∨ c = '#') := by
      intro c hc hor
      rcases hor with h | h | h
      · exact hnet c hc (Or.inl h)
      · exact hnet c hc (Or.inr (Or.inl h))
      · exact hnet c hc (Or.inr (Or.inr (Or.inl h)))
    have hXpqf : p ++ ((if q.isEmpty then [] else '?' :: q) ++
        (if f.isEmpty then [] else '#' :: f)) = [] ∨
        ((p ++ ((if q.isEmpty then [] else '?' :: q) ++
          (if f.isEmpty then [] else '#' :: f))).headD ' ' = '/' ∨
         (p ++ ((if q.isEmpty then [] else '?' :: q) ++
          (if f.isEmpty then [] else '#' :: f))).headD ' ' = '?' ∨
         (p ++ ((if q.isEmpty then [] else '?' :: q) ++
          (if f.isEmpty then [] else '#' :: f))).headD ' ' = '#') := by
      rcases hp3 : p with _ | ⟨b, p3⟩
      · simp only [List.nil_append]
        rcases hXqf with hX | ⟨d, rest2, hXl, hd⟩
        · exact Or.inl hX
        · right
          rw [hXl]
          simp only [List.headD_cons]
          right
          exact hd
      · rcases hA2 with h | h
        · rw [hp3] at h; exact absurd h (by simp)
        · rw [hp3] at h
          simp only [List.headD_cons] at h
          right
          left
          simp [h]
    have hnl : netlocSplitD ('/' :: '/' :: (n ++ (p ++
        ((if q.isEmpty then [] else '?' :: q) ++
          (if f.isEmpty then [] else '#' :: f))))) =
        Except.ok (n, p ++ ((if q.isEmpty then [] else '?' :: q) ++
          (if f.isEmpty then [] else '#' :: f))) := by
      unfold netlocSplitD
      have hcond : ('/' :: '/' :: (n ++ (p ++
          ((if q.isEmpty then [] else '?' :: q) ++
            (if f.isEmpty then [] else '#' :: f))))).take 2 = ['/', '/'] := rfl
      rw [if_pos hcond]
      simp only [bind, Except.bind]
      rw [show ('/' :: '/' :: (n ++ (p ++
        ((if q.isEmpty then [] else '?' :: q) ++
          (if f.isEmpty then [] else '#' :: f))))).drop 2 = n ++ (p ++
        ((if q.isEmpty then [] else '?' :: q) ++
          (if f.isEmpty then [] else '#' :: f))) from rfl]
      rw [splitNetloc_append n _ hnet2 hXpqf]
      have hnb1 : n.contains '[' = false :=
        contains_eq_false_of_not_mem n '[' (fun hm => hnet '[' hm
          (Or.inr (Or.inr (Or.inr (Or.inl rfl)))))
      have hnb2 : n.contains ']' = false :=
        contains_eq_false_of_not_mem n ']' (fun hm => hnet ']' hm
          (Or.inr (Or.inr (Or.inr (Or.inr rfl)))))
      rw [netlocBracketsCheck_ok n hnb1 hnb2]
      rfl
    rw [hnl]
    simp only
    rw [← List.append_assoc]
    rw [fragSplit_attach (p ++ (if q.isEmpty then [] else '?' :: q)) f hcontq]
    simp only
    rw [querySplit_attach p q hqp]

theorem utf8DecodeReplace_cons (b : Nat) (rest : List Nat) :
    utf8DecodeReplace (b :: rest) =
      if b ≤ 0x7F then Char.ofNat b :: utf8DecodeReplace rest
      else if 0xC2 ≤ b ∧ b ≤ 0xDF then
        match rest with
        | b2 :: rest2 =>
            if isCont b2 then
              Char.ofNat ((b - 192) * 64 + (b2 - 128)) :: utf8DecodeReplace rest2
            else fffd :: utf8DecodeReplace (b2 :: rest2)
        | [] => [fffd]
      else if 0xE0 ≤ b ∧ b ≤ 0xEF then
        let lo := if b = 0xE0 then 0xA0 else 0x80
        let hi := if b = 0xED then 0x9F else 0xBF
        match rest with
        | b2 :: rest2 =>
            if lo ≤ b2 ∧ b2 ≤ hi then
              match rest2 with
              | b3 :: rest3 =>
                  if isCont b3 then
                    Char.ofNat ((b - 224) * 4096 + (b2 - 128) * 64 + (b3 - 128)) ::
                      utf8DecodeReplace rest3
                  else fffd :: utf8DecodeReplace (b3 :: rest3)
              | [] => [fffd]
            else fffd :: utf8DecodeReplace (b2 :: rest2)
        | [] => [fffd]
      else if 0xF0 ≤ b ∧ b ≤ 0xF4 then
        let lo := if b = 0xF0 then 0x90 else 0x80
        let hi := if b = 0xF4 then 0x8F else 0xBF
        match rest with
        | b2 :: rest2 =>
            if lo ≤ b2 ∧ b2 ≤ hi then
              match rest2 with
              | b3 :: rest3 =>
                  if isCont b3 then
                    match rest3 with
                    | b4 :: rest4 =>
                        if isCont b4 then
                          Char.ofNat ((b - 240) * 262144 + (b2 - 128) * 4096 +
                              (b3 - 128) * 64 + (b4 - 128)) ::
                            utf8DecodeReplace rest4
                        else fffd :: utf8DecodeReplace (b4 :: rest4)
                    | [] => [fffd]
                  else fffd :: utf8DecodeReplace (b3 :: rest3)
              | [] => [fffd]
            else fffd :: utf8DecodeReplace (b2 :: rest2)
        | [] => [fffd]
      else fffd :: utf8DecodeReplace rest := by
  rcases rest with _ | ⟨b2, r2⟩
  · rfl
  · rcases r2 with _ | ⟨b3, r3⟩
    · rfl
    · rcases r3 with _ | ⟨b4, r4⟩
      · rfl
      · rfl

theorem utf8EncodeChar_decode (c : Char) (rest : List Nat) :
    utf8DecodeReplace (utf8EncodeChar c ++ rest) = c :: utf8DecodeReplace rest := by
  have hv : c.toNat < 0xD800 ∨ (0xDFFF < c.toNat ∧ c.toNat < 0x110000) := by
    rcases c.valid with h | ⟨h1, h2⟩
    · exact Or.inl h
    · exact Or.inr ⟨h1, h2⟩
  unfold utf8EncodeChar
  dsimp only
  by_cases h1 : c.toNat ≤ 0x7F
  · rw [if_pos h1, List.singleton_append]
    rw [utf8DecodeReplace_cons]
    rw [if_pos h1, Char.ofNat_toNat]
  · rw [if_neg h1]
    by_cases h2 : c.toNat ≤ 0x7FF
    · rw [if_pos h2, List.cons_append, List.cons_append, List.nil_append]
      rw [utf8DecodeReplace_cons]
      rw [if_neg (by omega), if_pos (by omega)]
      dsimp only
      rw [if_pos (show isCont (128 + c.toNat % 64) = true by
        unfold isCont
        rw [decide_eq_true_eq]
        omega)]
      rw [show (192 + c.toNat / 64 - 192) * 64 + (128 + c.toNat % 64 - 128) =
        c.toNat from by omega, Char.ofNat_toNat]
    · rw [if_neg h2]
      by_cases h3 : c.toNat ≤ 0xFFFF
      · rw [if_pos h3, List.cons_append, List.cons_append, List.cons_append,
          List.nil_append]
        rw [utf8DecodeReplace_cons]
        rw [if_neg (by omega), if_neg (by omega), if_pos (by omega)]
        dsimp only
        rw [if_pos (show
          (if 224 + c.toNat / 4096 = 0xE0 then 0xA0 else 0x80) ≤
              128 + c.toNat / 64 % 64 ∧
            128 + c.toNat / 64 % 64 ≤
              (if 224 + c.toNat / 4096 = 0xED then 0x9F else 0xBF) from by
          constructor
          · split
            · next he => omega
            · omega
          · split
            · next he => omega
            · omega)]
        rw [if_pos (show isCont (128 + c.toNat % 64) = true by
          unfold isCont
          rw [decide_eq_true_eq]
          omega)]
        rw [show (224 + c.toNat / 4096 - 224) * 4096 +
          (128 + c.toNat / 64 % 64 - 128) * 64 +
          (128 + c.toNat % 64 - 128) = c.toNat from by omega,
          Char.ofNat_toNat]
      · rw [if_neg h3, List.cons_append, List.cons_append, List.cons_append,
          List.cons_append, List.nil_append]
        have h4 : c.toNat < 0x110000 := by omega
        rw [utf8DecodeReplace_cons]
        rw [if_neg (by omega), if_neg (by omega), if_neg (by omega),
          if_pos (by omega)]
        dsimp only
        rw [if_pos (show
          (if 240 + c.toNat / 262144 = 0xF0 then 0x90 else 0x80) ≤
              128 + c.toNat / 4096 % 64 ∧
            128 + c.toNat / 4096 % 64 ≤
              (if 240 + c.toNat / 262144 = 0xF4 then 0x8F else 0xBF) from by
          constructor
          · split
            · next he => omega
            · omega
          · split
            · next he => omega
            · omega)]
        rw [if_pos (show isCont (128 + c.toNat / 64 % 64) = true by
          unfold isCont
          rw [decide_eq_true_eq]
          omega)]
        rw [if_pos (show isCont (128 + c.toNat % 64) = true by
          unfold isCont
          rw [decide_eq_true_eq]
          omega)]
        rw [show (240 + c.toNat / 262144 - 240) * 262144 +
          (128 + c.toNat / 4096 % 64 - 128) * 4096 +
          (128 + c.toNat / 64 % 64 - 128) * 64 +
          (128 + c.toNat % 64 - 128) = c.toNat from by omega,
          Char.ofNat_toNat]

theorem utf8_roundtrip (s : Str) : utf8DecodeReplace (utf8Encode s) = s := by
  induction s with
  | nil => rfl
  | cons c rest ih =>
      unfold utf8Encode
      rw [List.map_cons, List.flatten_cons]
      rw [utf8EncodeChar_decode c _]
      rw [show (rest.map utf8EncodeChar).flatten = utf8Encode rest from rfl, ih]

theorem toNat_ofNat_lt (n : Nat) (h : n < 0xD800) : (Char.ofNat n).toNat = n := by
  unfold Char.ofNat
  rw [dif_pos (Or.inl h)]
  rfl

theorem char_toNat_inj (c d : Char) (h : c.toNat = d.toNat) : c = d := by
  rw [← Char.ofNat_toNat c, ← Char.ofNat_toNat d, h]

theorem utf8EncodeChar_mem (c : Char) (b : Nat) (hb : b ∈ utf8EncodeChar c) :
    b < 256 ∧ (b = c.toNat ∨ 128 ≤ b) := by
  have hv : c.toNat < 0x110000 := by
    rcases c.valid with h | ⟨h1, h2⟩
    · exact Nat.lt_trans h (by norm_num)
    · exact h2
  unfold utf8EncodeChar at hb
  dsimp only at hb
  by_cases h1 : c.toNat ≤ 0x7F
  · rw [if_pos h1] at hb
    simp only [List.mem_singleton] at hb
    subst hb
    exact ⟨by omega, Or.inl rfl⟩
  · rw [if_neg h1] at hb
    by_cases h2 : c.toNat ≤ 0x7FF
    · rw [if_pos h2] at hb
      simp only [List.mem_cons, List.not_mem_nil, or_false] at hb
      rcases hb with hb | hb <;> subst hb <;>
        exact ⟨by omega, Or.inr (by omega)⟩
    · rw [if_neg h2] at hb
      by_cases h3 : c.toNat ≤ 0xFFFF
      · rw [if_pos h3] at hb
        simp only [List.mem_cons, List.not_mem_nil, or_false] at hb
        rcases hb with hb | hb | hb <;> subst hb <;>
          exact ⟨by omega, Or.inr (by omega)⟩
      · rw [if_neg h3] at hb
        simp only [List.mem_cons, List.not_mem_nil, or_false] at hb
        rcases hb with hb | hb | hb | hb <;> subst hb <;>
          exact ⟨by omega, Or.inr (by omega)⟩

theorem utf8Encode_mem (s : Str) (b : Nat) (hb : b ∈ utf8Encode s) :
    b < 256 ∧ (128 ≤ b ∨ ∃ c ∈ s, b = c.toNat) := by
  unfold utf8Encode at hb
  rw [List.mem_flatten] at hb
  obtain ⟨l, hl, hbl⟩ := hb
  rw [List.mem_map] at hl
  obtain ⟨c, hc, hcl⟩ := hl
  subst hcl
  obtain ⟨hlt, hor⟩ := utf8EncodeChar_mem c b hbl
  refine ⟨hlt, ?_⟩
  rcases hor with h | h
  · exact Or.inr ⟨c, hc, h⟩
  · exact Or.inl h

theorem hexVal_hexUpper (v : Nat) (hv : v < 16) :
    hexValByte ((hexUpperDigit v).toNat) = some v := by
  unfold hexUpperDigit
  by_cases h : v < 10
  · rw [if_pos h, toNat_ofNat_lt _ (by omega)]
    unfold hexValByte
    rw [if_pos (by omega)]
    congr 1
    omega
  · rw [if_neg h, toNat_ofNat_lt _ (by omega)]
    unfold hexValByte
    rw [if_neg (by omega), if_pos (by omega)]
    congr 1
    omega

theorem unqBytes_cons_ne37 (b : Nat) (rest : List Nat) (h : ¬b = 37) :
    unqBytes (b :: rest) = b :: unqBytes rest := by
  rw [unqBytes.eq_def]
  split
  · rename_i heq
    exact List.noConfusion heq
  · rename_i heq
    injection heq with h1 h2
    exact absurd h1 h
  · rename_i heq
    injection heq with h1 h2
    exact absurd h1 h
  · rename_i heq
    injection heq with h1 h2
    subst h1
    subst h2
    rfl

theorem unqBytes_pct (x y : Nat) (r : List Nat) :
    unqBytes (37 :: x :: y :: r) =
      match hexValByte x, hexValByte y with
      | some v1, some v2 => (16 * v1 + v2) :: unqBytes r
      | _, _ => 37 :: unqBytes (x :: y :: r) := rfl

theorem unqBytes_id_of_no37 (l : List Nat) (h : 37 ∉ l) : unqBytes l = l := by
  induction l with
  | nil => rfl
  | cons b rest ih =>
      have hb : ¬b = 37 := fun he => h (he ▸ List.mem_cons_self b rest)
      have h2 : 37 ∉ rest := fun hm => h (List.mem_cons_of_mem b hm)
      rw [unqBytes_cons_ne37 b rest hb, ih h2]

theorem contains_eq_true_of_mem (l : Str) (a : Char) (h : a ∈ l) :
    l.contains a = true := List.elem_eq_true_of_mem h

theorem quoteByte_toNat (safeB : List Nat) (b : Nat) (hb : b < 256) :
    (quoteByte safeB b).map Char.toNat =
      if (alwaysSafeByte b || safeB.contains b) = true then [b]
      else [37, (hexUpperDigit (b / 16)).toNat, (hexUpperDigit (b % 16)).toNat] := by
  unfold quoteByte
  split
  · simp only [List.map_cons, List.map_nil]
    rw [toNat_ofNat_lt b (by omega)]
  · simp only [List.map_cons, List.map_nil]
    rfl

theorem quoteByte_mem (safeB : List Nat) (b : Nat) (x : Char) (hb : b < 256)
    (hx : x ∈ quoteByte safeB b) :
    (x.toNat = b ∧ (alwaysSafeByte b || safeB.contains b) = true) ∨
      x = '%' ∨ ∃ v, v < 16 ∧ x = hexUpperDigit v := by
  unfold quoteByte at hx
  split at hx
  · next hc =>
      simp only [List.mem_singleton] at hx
      subst hx
      exact Or.inl ⟨toNat_ofNat_lt b (by omega), hc⟩
  · simp only [List.mem_cons, List.not_mem_nil, or_false] at hx
    rcases hx with hx | hx | hx
    · exact Or.inr (Or.inl hx)
    · exact Or.inr (Or.inr ⟨b / 16, by omega, hx⟩)
    · exact Or.inr (Or.inr ⟨b % 16, by omega, hx⟩)

theorem hexUpper_toNat_le (v : Nat) (hv : v < 16) :
    (hexUpperDigit v).toNat ≤ 127 := by
  unfold hexUpperDigit
  by_cases h : v < 10
  · rw [if_pos h, toNat_ofNat_lt _ (by omega)]
    omega
  · rw [if_neg h, toNat_ofNat_lt _ (by omega)]
    omega

theorem alwaysSafeByte_le (b : Nat) (h : alwaysSafeByte b = true) : b ≤ 127 := by
  unfold alwaysSafeByte at h
  simp only [Bool.or_eq_true, decide_eq_true_eq, beq_iff_eq] at h
  omega

theorem safeB_bound (safe : Str) (b : Nat)
    (hb : ((safe.filter (fun c => decide (c.toNat ≤ 127))).map
      Char.toNat).contains b = true) : b ≤ 127 := by
  have hm := List.mem_of_elem_eq_true hb
  rw [List.mem_map] at hm
  obtain ⟨c, hcf, hct⟩ := hm
  have := (List.mem_filter.mp hcf).2
  rw [decide_eq_true_eq] at this
  omega

theorem safeB_no37 (safe : Str) (hsafe : '%' ∉ safe) :
    37 ∉ (safe.filter (fun c => decide (c.toNat ≤ 127))).map Char.toNat := by
  intro hm
  rw [List.mem_map] at hm
  obtain ⟨c, hcf, hct⟩ := hm
  have hc : c = '%' := char_toNat_inj c '%' hct
  subst hc
  exact hsafe (List.mem_filter.mp hcf).1

theorem unqBytes_quote_bytes (safeB : List Nat) (h37 : 37 ∉ safeB)
    (bytes : List Nat) (hb : ∀ b ∈ bytes, b < 256) :
    unqBytes (((bytes.map (quoteByte safeB)).flatten).map Char.toNat) =
      bytes := by
  induction bytes with
  | nil => rfl
  | cons b bs ih =>
      have hblt := hb b (List.mem_cons_self b bs)
      have hbs : ∀ x ∈ bs, x < 256 := fun x hx =>
        hb x (List.mem_cons_of_mem b hx)
      rw [List.map_cons, List.flatten_cons, List.map_append,
        quoteByte_toNat safeB b hblt]
      split
      · next hcond =>
          have hb37 : ¬b = 37 := by
            intro he
            subst he
            rw [Bool.or_eq_true] at hcond
            rcases hcond with hc | hc
            · exact absurd hc (by decide)
            · exact h37 (List.mem_of_elem_eq_true hc)
          rw [List.singleton_append, unqBytes_cons_ne37 _ _ hb37, ih hbs]
      · rw [List.cons_append, List.cons_append, List.cons_append,
          List.nil_append, unqBytes_pct,
          hexVal_hexUpper (b / 16) (by omega), hexVal_hexUpper (b % 16) (by omega)]
        dsimp only
        rw [ih hbs]
        congr 1
        omega

theorem pyQuote_ascii (safe s : Str) : ∀ x ∈ pyQuote safe s, x.toNat ≤ 127 := by
  intro x hx
  unfold pyQuote at hx
  dsimp only at hx
  rw [List.mem_flatten] at hx
  obtain ⟨l, hl, hxl⟩ := hx
  rw [List.mem_map] at hl
  obtain ⟨b, hbm, hbl⟩ := hl
  subst hbl
  have hblt := (utf8Encode_mem s b hbm).1
  rcases quoteByte_mem _ b x hblt hxl with ⟨ht, hc⟩ | hx2 | ⟨v, hv, hx2⟩
  · rw [ht]
    rw [Bool.or_eq_true] at hc
    rcases hc with hc | hc
    · exact alwaysSafeByte_le b hc
    · exact safeB_bound safe b hc
  · subst hx2; decide
  · subst hx2; exact hexUpper_toNat_le v hv

theorem decode_ascii_id (t : Str) (h : ∀ c ∈ t, c.toNat ≤ 127) :
    utf8DecodeReplace (t.map Char.toNat) = t := by
  induction t with
  | nil => rfl
  | cons c rest ih =>
      rw [List.map_cons, utf8DecodeReplace_cons,
        if_pos (h c (List.mem_cons_self c rest)), Char.ofNat_toNat,
        ih (fun x hx => h x (List.mem_cons_of_mem c hx))]

theorem unquoteRunsAux_ascii (t : Str) (h : ∀ c ∈ t, c.toNat ≤ 127) :
    ∀ acc : List Nat, unquoteRunsAux acc t =
      utf8DecodeReplace (unqBytes (acc.reverse ++ t.map Char.toNat)) := by
  induction t with
  | nil => intro acc; simp [unquoteRunsAux]
  | cons c rest ih =>
      intro acc
      have hc := h c (List.mem_cons_self c rest)
      unfold unquoteRunsAux
      rw [if_pos hc, ih (fun x hx => h x (List.mem_cons_of_mem c hx))]
      congr 1
      congr 1
      simp [List.reverse_cons, List.append_assoc]

theorem pyUnquote_eq_decode (t : Str) (h : ∀ c ∈ t, c.toNat ≤ 127) :
    pyUnquote t = utf8DecodeReplace (unqBytes (t.map Char.toNat)) := by
  unfold pyUnquote
  rcases hc : t.contains '%' with _ | _
  · simp only [Bool.not_false, if_true]
    have h37 : 37 ∉ t.map Char.toNat := by
      intro hm
      rw [List.mem_map] at hm
      obtain ⟨c, hcm, hct⟩ := hm
      have hcp : c = '%' := char_toNat_inj c '%' hct
      subst hcp
      rw [contains_eq_true_of_mem t '%' hcm] at hc
      exact absurd hc (by decide)
    rw [unqBytes_id_of_no37 _ h37, decode_ascii_id t h]
  · simp only [Bool.not_true, Bool.false_eq_true, if_false]
    rw [unquoteRunsAux_ascii t h []]
    rfl

theorem unquote_quote (safe s : Str) (hsafe : '%' ∉ safe) :
    pyUnquote (pyQuote safe s) = s := by
  rw [pyUnquote_eq_decode _ (pyQuote_ascii safe s)]
  unfold pyQuote
  dsimp only
  rw [unqBytes_quote_bytes _ (safeB_no37 safe hsafe) _
    (fun b hb => (utf8Encode_mem s b hb).1), utf8_roundtrip]

theorem pyQuote_no_plus (safe s : Str) (hs : '+' ∉ s) : '+' ∉ pyQuote safe s := by
  intro hx
  unfold pyQuote at hx
  dsimp only at hx
  rw [List.mem_flatten] at hx
  obtain ⟨l, hl, hxl⟩ := hx
  rw [List.mem_map] at hl
  obtain ⟨b, hbm, hbl⟩ := hl
  subst hbl
  obtain ⟨hblt, hbor⟩ := utf8Encode_mem s b hbm
  rcases quoteByte_mem _ b '+' hblt hxl with ⟨ht, hcnd⟩ | hx2 | ⟨v, hv, hx2⟩
  · rcases hbor with h128 | ⟨c, hcm, hce⟩
    · rw [← ht] at h128
      exact absurd h128 (by decide)
    · have hcp : c = '+' := char_toNat_inj c '+' (by rw [← hce, ← ht])
      subst hcp
      exact hs hcm
  · exact absurd hx2 (by decide)
  · have hval := hexVal_hexUpper v hv
    rw [← hx2, show ('+').toNat = 43 from rfl,
      show hexValByte 43 = none from rfl] at hval
    exact Option.noConfusion hval

theorem map_fg_id (l : Str) (h : '+' ∉ l) :
    (l.map (fun c => if c = ' ' then '+' else c)).map
      (fun c => if c = '+' then ' ' else c) = l := by
  rw [List.map_map]
  conv_rhs => rw [← List.map_id l]
  apply List.map_congr_left
  intro c hc
  by_cases hsp : c = ' '
  · subst hsp
    simp
  · have hpl : ¬c = '+' := fun he => h (he ▸ hc)
    simp [hsp, hpl]

theorem unquote_plus_quote_plus (q : Str) (hq : '%' ∉ q) (hplus : '+' ∉ q) :
    pyUnquotePlus (pyQuotePlus (chars "+") q) = pyUnquotePlus q := by
  unfold pyQuotePlus
  rcases hsp : q.contains ' ' with _ | _
  · simp only [Bool.not_false, if_true]
    unfold pyUnquotePlus
    rw [map_plus_id _ (pyQuote_no_plus _ q hplus),
      unquote_quote _ q (by decide), map_plus_id q hplus,
      pyUnquote_id_of_no_pct q (contains_eq_false_of_not_mem q '%' hq)]
  · simp only [Bool.not_true, Bool.false_eq_true, if_false]
    unfold pyUnquotePlus
    rw [map_fg_id _ (pyQuote_no_plus _ q hplus),
      unquote_quote _ q (by decide), map_plus_id q hplus,
      pyUnquote_id_of_no_pct q (contains_eq_false_of_not_mem q '%' hq)]

/-- C3 counterexample: for `http://e/a%20b` the quoted form re-encodes the
percent sign, so percent-decoding the quoted path gives `/a%20b`, not the
unquoted path `/a b`. -/
theorem c3_counterexample :
    ∃ r, parse (chars "http://e/a%20b") = Except.ok (PyDict.record r) ∧
      r.quoted = some (chars "http://e/a%2520b") ∧
      r.unquoted = some (chars "http://e/a b") ∧
      ∃ qp up, urlsplitD (chars "http://e/a%2520b") = Except.ok qp ∧
        urlsplitD (chars "http://e/a b") = Except.ok up ∧
        ¬pyUnquote qp.path = up.path := by
  refine ⟨_, rfl, rfl, rfl, _, _, rfl, rfl, by decide⟩

/-- **C3** (amended): when the normalized path and query contain no `%` (and
the query no literal `+`), the quoted and unquoted forms denote the same URL
componentwise: percent-decoding the quoted path (and plus-decoding the quoted
query) yields exactly the unquoted path (and query), and the record's
`quoted`/`unquoted` fields are precisely the reassemblies of those
components.  Without the `%`-freeness the claim fails (see the
counterexample): quoting re-encodes `%` as `%25`, so one decode of the quoted
path returns the raw path, while the unquoted path is the decoded one. -/
theorem c3_amended (data : Str) (r : URLRecord)
    (parts normalized : SplitResult)
    (hok : parse data = Except.ok (PyDict.record r))
    (h1 : urlsplitD (pyUnwrap data) = Except.ok parts)
    (h2 : urlsplitD (urlunsplit parts) = Except.ok normalized)
    (hpp : '%' ∉ normalized.path) (hpq : '%' ∉ normalized.query)
    (hplq : '+' ∉ normalized.query) :
    pyUnquote (pyQuote (chars "/") normalized.path) =
      pyUnquote normalized.path ∧
    pyUnquotePlus (pyQuotePlus (chars "+") normalized.query) =
      pyUnquotePlus normalized.query ∧
    r.quoted = orNoneStr (quotedOf normalized) ∧
    r.unquoted = orNoneStr (unquotedOf normalized) := by
  obtain ⟨hd, parts2, normalized2, uparts2, h1b, h2b, h3b, hbr⟩ :=
    parse_ok_inv data r hok
  rw [h1] at h1b
  injection h1b with h1e
  subst h1e
  rw [h2] at h2b
  injection h2b with h2e
  subst h2e
  obtain ⟨port, hport, hr⟩ := buildRecord_ok_inv _ _ _ _ _ hbr
  subst hr
  refine ⟨?_, unquote_plus_quote_plus _ hpq hplq, rfl, rfl⟩
  rw [unquote_quote _ _ (by decide),
    pyUnquote_id_of_no_pct _ (contains_eq_false_of_not_mem _ '%' hpp)]

/-- C3 witness: a path with a space is re-encoded (`%20`) in the quoted form
and decodes back to the unquoted form. -/
theorem c3_witness :
    ∃ r parts normalized,
      parse (chars "http://e/a b") = Except.ok (PyDict.record r) ∧
      urlsplitD (pyUnwrap (chars "http://e/a b")) = Except.ok parts ∧
      urlsplitD (urlunsplit parts) = Except.ok normalized ∧
      '%' ∉ normalized.path ∧
      pyUnquote (pyQuote (chars "/") normalized.path) =
        pyUnquote normalized.path ∧
      r.quoted = orNoneStr (quotedOf normalized) ∧
      r.unquoted = orNoneStr (unquotedOf normalized) := by
  have h := c3_amended (chars "http://e/a b") _ _ _ rfl rfl rfl
    (by decide) (by decide) (by decide)
  exact ⟨_, _, _, rfl, rfl, rfl, by decide, h.1, h.2.2.1, h.2.2.2⟩

/-- C6 counterexample: for input `%2520` the record's unquoted string is
`%20` and its path is `%20`, but re-parsing `%20` decodes it to a space,
which the sanitization step then strips, leaving a null path. -/
theorem c6_counterexample :
    ∃ r1, parse (chars "%2520") = Except.ok (PyDict.record r1) ∧
      r1.unquoted = some (chars "%20") ∧
      r1.path = some (chars "%20") ∧
      ∃ r2, parse (chars "%20") = Except.ok (PyDict.record r2) ∧
        r2.path = none := by
  refine ⟨_, rfl, rfl, rfl, _, rfl, rfl⟩

/-- **C6** (amended): re-parsing the unquoted string reproduces the
`path`, `path_list`, `query`, `query_list` and `fragment` fields, provided
the unquoted string is a fixed point of the pipeline: it is unwrap-invariant
and has data, its split tuple is stable under `urlunsplit`-then-`urlsplit`,
its path and query are free of `%` (and the query of `+`) so that no further
decoding happens, its port is not failing, and its fragment agrees with the
original split's fragment.
Unrestricted, the claim is false (see the counterexample): decoding can
expose new percent-escapes, whitespace, or delimiters that re-split
differently. -/
theorem c6_amended (data : Str) (r1 : URLRecord)
    (parts normalized uparts : SplitResult)
    (hok : parse data = Except.ok (PyDict.record r1))
    (h1 : urlsplitD (pyUnwrap data) = Except.ok parts)
    (h2 : urlsplitD (urlunsplit parts) = Except.ok normalized)
    (h3 : urlsplitD (unquotedOf normalized) = Except.ok uparts)
    (hd2 : has_data (unquotedOf normalized) = true)
    (hu : pyUnwrap (unquotedOf normalized) = unquotedOf normalized)
    (hstab2 : urlsplitD (urlunsplit uparts) = Except.ok uparts)
    (hpp : '%' ∉ uparts.path) (hpq : '%' ∉ uparts.query)
    (hplq : '+' ∉ uparts.query)
    (hport : portFails uparts = false)
    (hfrag : uparts.fragment = parts.fragment) :
    ∃ r2, parse (unquotedOf normalized) = Except.ok (PyDict.record r2) ∧
      r2.path = r1.path ∧ r2.path_list = r1.path_list ∧
      r2.query = r1.query ∧ r2.query_list = r1.query_list ∧
      r2.fragment = r1.fragment := by
  have hunqid : unquotedOf uparts = urlunsplit uparts := by
    unfold unquotedOf
    rw [pyUnquote_id_of_no_pct _ (contains_eq_false_of_not_mem _ '%' hpp),
      pyUnquotePlus_no_pct _ hpq, map_plus_id _ hplq]
  have h1u : urlsplitD (pyUnwrap (unquotedOf normalized)) =
      Except.ok uparts := by
    rw [hu]
    exact h3
  have h3u : urlsplitD (unquotedOf uparts) = Except.ok uparts := by
    rw [hunqid]
    exact hstab2
  have hpeq := parse_eq_of_splits (unquotedOf normalized) hd2 uparts uparts
    uparts h1u hstab2 h3u
  obtain ⟨v, hv⟩ := (portD_ok_iff uparts).mpr hport
  have hbr : buildRecord uparts (quotedOf uparts) (unquotedOf uparts)
      uparts = Except.ok (URLRecord.mk
        (orNoneStr (quotedOf uparts))
        (orNoneStr (unquotedOf uparts))
        (orNoneStr uparts.scheme)
        (orNoneStr uparts.netloc)
        (match myPathOf uparts with
         | none => none
         | some p => orNoneStr p)
        (match pathListOf uparts with
         | none => none
         | some pl => orNoneList pl)
        (if uparts.query.isEmpty then none
         else orNoneList (pyParseQs uparts.query))
        (if uparts.query.isEmpty then none
         else orNoneList (pyParseQsl uparts.query))
        (orNoneStr uparts.fragment)
        uparts.userinfo.1
        uparts.userinfo.2
        uparts.hostname
        v) := by
    unfold buildRecord
    simp only [bind, Except.bind, hv]
  obtain ⟨hd, parts2, normalized2, uparts2, h1b, h2b, h3b, hbro⟩ :=
    parse_ok_inv data r1 hok
  rw [h1] at h1b
  injection h1b with h1e
  subst h1e
  rw [h2] at h2b
  injection h2b with h2e
  subst h2e
  rw [h3] at h3b
  injection h3b with h3e
  subst h3e
  obtain ⟨port, hport2, hr1⟩ := buildRecord_ok_inv _ _ _ _ _ hbro
  subst hr1
  refine ⟨URLRecord.mk
      (orNoneStr (quotedOf uparts)) (orNoneStr (unquotedOf uparts))
      (orNoneStr uparts.scheme) (orNoneStr uparts.netloc)
      (match myPathOf uparts with | none => none | some p => orNoneStr p)
      (match pathListOf uparts with | none => none | some pl => orNoneList pl)
      (if uparts.query.isEmpty then none
       else orNoneList (pyParseQs uparts.query))
      (if uparts.query.isEmpty then none
       else orNoneList (pyParseQsl uparts.query))
      (orNoneStr uparts.fragment) uparts.userinfo.1 uparts.userinfo.2
      uparts.hostname v, ?_, rfl, rfl, rfl, rfl, ?_⟩
  · rw [hpeq, hbr]
    rfl
  · show orNoneStr uparts.fragment = _
    rw [hfrag]

/-- C6 witness: a plain normalized URL whose unquoted form re-parses to the
same path, query and fragment fields. -/
theorem c6_witness :
    ∃ r1 r2, parse (chars "http://e/a/b?x=1&y=2#f") =
        Except.ok (PyDict.record r1) ∧
      r1.unquoted = some (chars "http://e/a/b?x=1&y=2#f") ∧
      parse (chars "http://e/a/b?x=1&y=2#f") = Except.ok (PyDict.record r2) ∧
      r2.path = r1.path ∧ r2.path_list = r1.path_list ∧
      r2.query = r1.query ∧ r2.query_list = r1.query_list ∧
      r2.fragment = r1.fragment := by
  have h := c6_amended (chars "http://e/a/b?x=1&y=2#f") _ _ _ _ rfl rfl rfl rfl
    (by decide) (by decide) (by rfl)
    (by decide) (by decide) (by decide) (by decide) (by decide)
  obtain ⟨r2, hp, hfields⟩ := h
  exact ⟨_, r2, rfl, rfl, hp, hfields.1, hfields.2.1, hfields.2.2.1,
    hfields.2.2.2.1, hfields.2.2.2.2⟩

end JcUrl
